import Mathlib

/-!
Verification development for `Grzesie2k/version` (`main.go`).

A shallow embedding of the version classifier and its two formatters.

Conventions of the embedding:

* A Go `string` is a Lean `String`; the helper functions work on its list of
  characters.  Every character stands for one byte of the Go string (the
  outputs of git that the program inspects are ASCII).
* A Go `(T, error)` result is an `Except String T`; a Go function that can
  panic returns an `Option`, where `none` is the panic.
* Go's `int` is the 64-bit signed integer; values are `Int` and the one
  arithmetic operation of the program is wrapped explicitly.
* The external command `git(args...)` is a parameter of the classifier: a
  function from the argument list to the outcome of the call.
-/

namespace VersionTool

deriving instance DecidableEq for Except

/-! ## Strings -/

/-- Go `strings.Split(s, sep)` for a one-character separator. -/
def splitChars (sep : Char) : List Char → List (List Char)
  | [] => [[]]
  | c :: cs =>
    if c = sep then [] :: splitChars sep cs
    else
      match splitChars sep cs with
      | [] => [[c]]
      | p :: ps => (c :: p) :: ps

/-- Removes the leading characters that satisfy `p`. -/
def trimLeft (p : Char → Bool) : List Char → List Char
  | [] => []
  | c :: cs => if p c then trimLeft p cs else c :: cs

/-- Go `strings.Trim(s, "\n")`: leading and trailing newlines are removed. -/
def trimNewlines (s : List Char) : List Char :=
  (trimLeft (fun c => c = '\n') (trimLeft (fun c => c = '\n') s).reverse).reverse

/-! ## Numbers -/

/-- The character class `\d` of the patterns (ASCII digits only). -/
def isDigit (c : Char) : Bool := decide ('0'.toNat ≤ c.toNat) && decide (c.toNat ≤ '9'.toNat)

/-- The character class `[1-9]` of the patterns. -/
def isNonZeroDigit (c : Char) : Bool := decide ('1'.toNat ≤ c.toNat) && decide (c.toNat ≤ '9'.toNat)

/-- Value of a decimal digit character. -/
def digitValue (c : Char) : Nat := c.toNat - '0'.toNat

/-- Left-to-right accumulation of a run of decimal digits. -/
def digitsValue (acc : Nat) : List Char → Nat
  | [] => acc
  | c :: cs => digitsValue (10 * acc + digitValue c) cs

/-- Go `strconv.ParseUint(s, 10, _)` without the range check: the value of a
non-empty string of decimal digits, an error otherwise. -/
def parseMagnitude (s : List Char) : Except String Nat :=
  if s.isEmpty then .error "invalid syntax"
  else if s.all isDigit then .ok (digitsValue 0 s)
  else .error "invalid syntax"

/-- Go `strconv.ParseInt(s, 10, bitSize)`: an optional sign, decimal digits,
and the range check against `bitSize`. -/
def parseInt (bitSize : Nat) (s : List Char) : Except String Int :=
  let cutoff : Nat := 2 ^ (bitSize - 1)
  match s with
  | [] => .error "invalid syntax"
  | '-' :: ds =>
    match parseMagnitude ds with
    | .error e => .error e
    | .ok un => if un > cutoff then .error "value out of range" else .ok (-(un : Int))
  | '+' :: ds =>
    match parseMagnitude ds with
    | .error e => .error e
    | .ok un => if un ≥ cutoff then .error "value out of range" else .ok (un : Int)
  | ds =>
    match parseMagnitude ds with
    | .error e => .error e
    | .ok un => if un ≥ cutoff then .error "value out of range" else .ok (un : Int)

/-- Source `parseNumber`: `strconv.ParseInt(number, 10, 32)` converted to `int`. -/
def parseNumber (number : List Char) : Except String Int :=
  match parseInt 32 number with
  | .error e => .error e
  | .ok n => .ok n

/-- The character of a decimal digit `d < 10`. -/
def digitChar (d : Nat) : Char := Char.ofNat ('0'.toNat + d)

/-- Decimal digits of a natural number, most significant first; `fuel` bounds
the number of digits produced. -/
def natDigits : Nat → Nat → List Char → List Char
  | 0, _, acc => acc
  | fuel + 1, n, acc =>
    if n < 10 then digitChar n :: acc
    else natDigits fuel (n / 10) (digitChar (n % 10) :: acc)

/-- Decimal rendering of a natural number. -/
def formatNat (n : Nat) : List Char := natDigits (n + 1) n []

/-- Canonical decimal text of a natural number. -/
def decimal (n : Nat) : String := String.mk (formatNat n)

/-- Go `%d` of an `int`. -/
def formatInt (i : Int) : List Char :=
  if i < 0 then '-' :: formatNat i.natAbs else formatNat i.natAbs

/-- Go `int` arithmetic: the result is reduced to the 64-bit signed range. -/
def wrapInt (i : Int) : Int := (i + 2 ^ 63) % 2 ^ 64 - 2 ^ 63

/-! ## Regular expressions

The fragment of Go's `regexp` syntax that the three patterns of the program
use.  Groups only delimit; none of the callers reads a capture. -/

/-- Regular expressions of the program's patterns. -/
inductive Re where
  /-- The empty expression. -/
  | eps : Re
  /-- A literal character. -/
  | chr : Char → Re
  /-- One character of a class. -/
  | cls : (Char → Bool) → Re
  /-- Greedy repetition `c*` of a character class. -/
  | clsStar : (Char → Bool) → Re
  /-- Concatenation. -/
  | seq : Re → Re → Re
  /-- Alternation `a|b`, preferring `a`. -/
  | alt : Re → Re → Re
  /-- The assertion `$` under the flag `(?m)`: end of text or before a newline. -/
  | eol : Re

/-- All ways for `c*` to match a prefix of the input, as the remaining
inputs, the longest match first. -/
def starRests (p : Char → Bool) : List Char → List (List Char)
  | [] => [[]]
  | c :: cs => if p c then starRests p cs ++ [c :: cs] else [c :: cs]

/-- All ways for the expression to match a prefix of the input, as the
remaining inputs, in the order a backtracking search finds them. -/
def Re.rests : Re → List Char → List (List Char)
  | .eps, s => [s]
  | .chr c, s =>
    match s with
    | [] => []
    | d :: ds => if d = c then [ds] else []
  | .cls p, s =>
    match s with
    | [] => []
    | d :: ds => if p d then [ds] else []
  | .clsStar p, s => starRests p s
  | .seq a b, s => (a.rests s).flatMap b.rests
  | .alt a b, s => a.rests s ++ b.rests s
  | .eol, s =>
    match s with
    | [] => [[]]
    | d :: ds => if d = '\n' then [d :: ds] else []

/-- The match at the start of the input that a backtracking search finds
first, if any. -/
def Re.matchPrefix (r : Re) (s : List Char) : Option (List Char) :=
  match r.rests s with
  | [] => none
  | rest :: _ => some (s.take (s.length - rest.length))

/-- Leftmost match: the first position of the input where the expression
matches, with the match preferred there. -/
def Re.find (r : Re) : List Char → Option (List Char)
  | [] => r.matchPrefix []
  | c :: cs =>
    match r.matchPrefix (c :: cs) with
    | some m => some m
    | none => r.find cs

/-- Go `(*Regexp).FindString`: the text of the leftmost match, or the empty
string when there is none. -/
def Re.FindString (r : Re) (s : List Char) : List Char :=
  match r.find s with
  | some m => m
  | none => []

/-- A literal word. -/
def Re.word : List Char → Re
  | [] => .eps
  | c :: cs => .seq (.chr c) (Re.word cs)

/-- The bounded repetition `r{0,2}`, greedy: `(r(r)?)?`. -/
def Re.upToTwo (r : Re) : Re := .alt (.seq r (.alt r .eps)) .eps

/-- The component pattern `(0|[1-9]\d*)`. -/
def numberRe : Re := .alt (.chr '0') (.seq (.cls isNonZeroDigit) (.clsStar isDigit))

/-- A canonical decimal numeral: `0`, or a non-zero digit followed by digits. -/
def Canonical (m : List Char) : Prop :=
  m = ['0'] ∨ ∃ d ds, m = d :: ds ∧ isNonZeroDigit d = true ∧ ds.all isDigit = true

/-- The input does not continue with the separator and a digit. -/
def NoNextPart (sep : Char) (post : List Char) : Prop :=
  ∀ c cs, post = sep :: c :: cs → isDigit c = false

/-- The pattern of `createVersion`: `(0|[1-9]\d*)(\sep(0|[1-9]\d*)){0,2}`.
The separator is a punctuation character, for which the escape denotes the
character itself. -/
def filterRe (sep : Char) : Re := .seq numberRe (Re.upToTwo (.seq (.chr sep) numberRe))

/-- The pattern of `getReleaseBranch`: `(?m)(0|[1-9]\d*)-(0|[1-9]\d*)-stable$`. -/
def rcBranchRegexp : Re :=
  .seq numberRe (.seq (.chr '-') (.seq numberRe (.seq (Re.word "-stable".toList) .eol)))

/-- The pattern of `getPrevRelease`: `v(0|[1-9]\d*)\.(0|[1-9]\d*)\.(0|[1-9]\d*)`. -/
def releaseTagRegexp : Re :=
  .seq (.chr 'v') (.seq numberRe (.seq (.chr '.') (.seq numberRe (.seq (.chr '.') numberRe))))

/-! ## Time -/

/-- Go `time.Time` at second resolution: the seconds since the Unix epoch and
whether the location is `Local` (otherwise UTC).  The calendar arithmetic
below is exact on `Int`; instants outside the range Go represents are not
given Go's wrap-around. -/
structure Time where
  /-- Seconds since 1970-01-01T00:00:00Z. -/
  unixSec : Int
  /-- Location `Local` rather than UTC. -/
  isLocal : Bool
  deriving DecidableEq, Repr

/-- The zero value `time.Time{}`: January 1 of year 1, 00:00:00 UTC. -/
def Time.zero : Time := { unixSec := -62135596800, isLocal := false }

/-- Go `time.Unix(sec, 0)`: the instant, in the local location. -/
def Time.Unix (sec : Int) : Time := { unixSec := sec, isLocal := true }

/-- Year and month of the proleptic Gregorian calendar for a number of days
since 1970-01-01. -/
def civilYearMonth (days : Int) : Int × Int :=
  let z := days + 719468
  let era := z / 146097
  let doe := z % 146097
  let yoe := (doe - doe / 1460 + doe / 36524 - doe / 146096) / 365
  let doy := doe - (365 * yoe + yoe / 4 - yoe / 100)
  let mp := (5 * doy + 2) / 153
  let m := if mp < 10 then mp + 3 else mp - 9
  let y := yoe + era * 400
  (if m ≤ 2 then y + 1 else y, m)

/-- Go `appendInt(b, x, width)` of package `time`: decimal digits padded with
zeros on the left up to `width`, after a minus sign for a negative value. -/
def appendInt (x : Int) (width : Nat) : List Char :=
  let ds := formatNat x.natAbs
  let padded := List.replicate (width - ds.length) '0' ++ ds
  if x < 0 then '-' :: padded else padded

/-- Go `t.Format("2006-01")`: year and month of the instant in its location;
`zone` gives the offset in seconds of the local zone at an instant. -/
def Time.formatYearMonth (zone : Int → Int) (t : Time) : String :=
  let offset := if t.isLocal then zone t.unixSec else 0
  let ym := civilYearMonth ((t.unixSec + offset) / 86400)
  String.mk (appendInt ym.1 4 ++ '-' :: appendInt ym.2 2)

/-! ## Versions -/

/-- Source constant `INIT`. -/
def INIT : String := "init"

/-- Source constant `RC`. -/
def RC : String := "rc"

/-- Source constant `RELEASE`. -/
def RELEASE : String := "release"

/-- Source constant `FEATURE`. -/
def FEATURE : String := "feature"

/-- Source `Version`; the defaults are Go's zero values. -/
structure Version where
  /-- The state, a `VersionType` string. -/
  versionType : String := ""
  /-- First component. -/
  major : Int := 0
  /-- Second component. -/
  minor : Int := 0
  /-- Third component. -/
  patch : Int := 0
  /-- Output of the hash query. -/
  commitSha : String := ""
  /-- Commit time. -/
  date : Time := Time.zero
  deriving DecidableEq, Repr

/-- Source `createVersion`.  The `switch` on the number of parts runs exactly
one case: Go does not continue into the next case. -/
def createVersion (version : String) (sep : Char) : Except String Version :=
  let v : Version := {}
  let filteredString := (filterRe sep).FindString version.toList
  let parts := splitChars sep filteredString
  match parts with
  | [_, _, p2] =>
    match parseNumber p2 with
    | .error e => .error e
    | .ok patch => .ok { v with patch := patch }
  | [_, p1] =>
    match parseNumber p1 with
    | .error e => .error e
    | .ok minor => .ok { v with minor := minor }
  | [p0] =>
    match parseNumber p0 with
    | .error e => .error e
    | .ok major => .ok { v with major := major }
  | _ => .error "cannot parse version"

/-! ## Queries -/

/-- Source `git`: the outcome of running git with the given arguments. -/
abbrev Git := List String → Except String String

/-- Arguments of the hash query. -/
def hashQuery : List String := ["log", "-1", "--format=%H"]

/-- Arguments of the timestamp query. -/
def timestampQuery : List String := ["show", "-s", "--format=%ct"]

/-- Arguments of the exact-tag query. -/
def exactTagQuery : List String := ["describe", "--match v*", "--exact", "--tags"]

/-- Arguments of the stable-branch query. -/
def stableBranchQuery : List String :=
  ["describe", "--match", "*-stable", "--all", "--abbrev=0", "--first-parent"]

/-- Arguments of the most-recent-release-tag query. -/
def recentTagQuery : List String := ["describe", "--match", "v*", "--tags", "--abbrev=0"]

/-- Source `getReleaseBranch`. -/
def getReleaseBranch (git : Git) : Except String Version :=
  match git stableBranchQuery with
  | .error e => .error e
  | .ok rcBranch =>
    let rcBranch := rcBranchRegexp.FindString rcBranch.toList
    if rcBranch.length = 0 then .error "invalid rc branch name"
    else
      match createVersion (String.mk rcBranch) '-' with
      | .error e => .error e
      | .ok version => .ok version

/-- Source `getPrevRelease`. -/
def getPrevRelease (git : Git) : Except String Version :=
  match git recentTagQuery with
  | .error e => .error e
  | .ok tag =>
    let version := releaseTagRegexp.FindString tag.toList
    if version.length = 0 then .error "unsupported version tag"
    else
      match createVersion (String.mk version) '.' with
      | .error e => .error e
      | .ok v => .ok { v with versionType := RELEASE }

/-- Lines 87 to 107 of source `version`: the classification once the exact
tag did not yield a release. -/
def versionFromBranch (git : Git) (version : Version) : Version :=
  match getReleaseBranch git with
  | .error _ => { version with versionType := FEATURE }
  | .ok rcBranch =>
    let version :=
      { version with minor := rcBranch.minor, major := rcBranch.major, versionType := RC }
    match getPrevRelease git with
    | .ok prevRelease => { version with patch := wrapInt (prevRelease.patch + 1) }
    | .error _ => { version with patch := 1 }

/-- Source `version`; `none` is the panic on a timestamp that does not parse. -/
def version (git : Git) : Option Version :=
  let version : Version := { versionType := INIT }
  match git hashQuery with
  | .error _ => some version
  | .ok commitSha =>
    let version := { version with commitSha := commitSha }
    match git timestampQuery with
    | .error _ => some version
    | .ok commitDate =>
      match parseInt 64 (trimNewlines commitDate.toList) with
      | .error _ => none
      | .ok timestamp =>
        let version := { version with date := Time.Unix timestamp }
        match git exactTagQuery with
        | .error _ => some (versionFromBranch git version)
        | .ok versionTag =>
          match createVersion versionTag '.' with
          | .ok v =>
            some { version with
              versionType := RELEASE, patch := v.patch, minor := v.minor, major := v.major }
          | .error _ => some (versionFromBranch git version)

/-! ## Formatters -/

/-- Go `%d` as a string. -/
def sprintD (i : Int) : String := String.mk (formatInt i)

/-- Go slice expression `s[0:n]`; `none` is the panic when `s` is shorter. -/
def sliceTo (s : String) (n : Nat) : Option String :=
  if s.length < n then none else some (String.mk (s.toList.take n))

/-- Source `namespace`; `zone` is the local zone of `Time.formatYearMonth`. -/
def namespaceOf (zone : Int → Int) (version : Version) : String :=
  if version.versionType = RELEASE then
    "/v" ++ sprintD version.major ++ "." ++ sprintD version.minor ++ "." ++ sprintD version.patch
  else if version.versionType = INIT then "/v0.0.0"
  else if version.versionType = RC then
    "/v" ++ sprintD version.major ++ "." ++ sprintD version.minor ++ "."
      ++ sprintD version.patch ++ ":" ++ version.commitSha
  else "/dev-" ++ version.date.formatYearMonth zone ++ ":" ++ version.commitSha

/-- Source `printVersion`; `none` is the panic of the slice expression. -/
def printVersion (version : Version) : Option String :=
  if version.versionType = RELEASE then
    some ("v" ++ sprintD version.major ++ "." ++ sprintD version.minor ++ "."
      ++ sprintD version.patch)
  else if version.versionType = INIT then some "v0.0.0"
  else if version.versionType = RC then
    match sliceTo version.commitSha 8 with
    | none => none
    | some short =>
      some ("v" ++ sprintD version.major ++ "." ++ sprintD version.minor ++ "."
        ++ sprintD version.patch ++ "-" ++ short)
  else
    match sliceTo version.commitSha 8 with
    | none => none
    | some short => some ("dev-" ++ short)

/-! ## Vocabulary of the properties -/

/-- Text of the release tag `v<a>.<b>.<c>`. -/
def releaseTagText (a b c : Nat) : String :=
  "v" ++ decimal a ++ "." ++ decimal b ++ "." ++ decimal c

/-- Text of the stable-branch name `<M>-<m>-stable`. -/
def stableBranchText (M m : Nat) : String := decimal M ++ "-" ++ decimal m ++ "-stable"

/-- The output of the most-recent-release-tag query contains the tag
`v<a>.<b>.<c>`: it is the text that the pattern of `getPrevRelease` finds. -/
def ContainsReleaseTag (out : String) (a b c : Nat) : Prop :=
  releaseTagRegexp.FindString out.toList = (releaseTagText a b c).toList

/-- The output of the stable-branch query contains a name `<M>-<m>-stable` at
the end of one of its lines. -/
def ContainsStableName (out : String) : Prop :=
  ∃ pre M m post, out.toList = pre ++ ((stableBranchText M m).toList ++ post) ∧
    (post = [] ∨ post.head? = some '\n')

/-! ## Sample repositories and versions -/

/-- A repository whose HEAD carries the tag `v1.2.3`. -/
def repoTagged : Git := fun args =>
  if args = hashQuery then .ok "abcdef1234567890\n"
  else if args = timestampQuery then .ok "1700000000\n"
  else if args = exactTagQuery then .ok "v1.2.3\n"
  else .error "exit status 128"

/-- A repository whose HEAD carries the tag `v2.0.0` and lies on the stable
branch `2-0-stable`. -/
def repoTaggedOnStable : Git := fun args =>
  if args = hashQuery then .ok "abcdef1234567890\n"
  else if args = timestampQuery then .ok "1700000000\n"
  else if args = exactTagQuery then .ok "v2.0.0"
  else if args = stableBranchQuery then .ok "heads/2-0-stable\n"
  else if args = recentTagQuery then .ok "v2.0.0\n"
  else .error "exit status 128"

/-- A repository on the stable branch `3-1-stable` after the release `v3.1.4`. -/
def repoStable : Git := fun args =>
  if args = hashQuery then .ok "abcdef1234567890\n"
  else if args = timestampQuery then .ok "1700000000\n"
  else if args = stableBranchQuery then .ok "heads/3-1-stable\n"
  else if args = recentTagQuery then .ok "v3.1.4\n"
  else .error "exit status 128"

/-- A repository on a branch `main` whose HEAD carries the tag `vnext`. -/
def repoPlain : Git := fun args =>
  if args = hashQuery then .ok "abcdef1234567890\n"
  else if args = timestampQuery then .ok "1700000000\n"
  else if args = exactTagQuery then .ok "vnext\n"
  else if args = stableBranchQuery then .ok "heads/main\n"
  else .error "exit status 128"

/-- Every query but the hash query answers. -/
def repoNoHash : Git := fun args =>
  if args = hashQuery then .error "exit status 128"
  else if args = timestampQuery then .ok "1700000000\n"
  else if args = exactTagQuery then .ok "v1.2.3\n"
  else if args = stableBranchQuery then .ok "heads/3-1-stable\n"
  else .ok "v3.1.4\n"

/-- The version that `version` computes for `repoStable`. -/
def stableCandidate : Version :=
  { versionType := RC, major := 0, minor := 1, patch := 5,
    commitSha := "abcdef1234567890\n", date := Time.Unix 1700000000 }

/-- The release candidate of the end-to-end example. -/
def sampleCandidate : Version :=
  { versionType := RC, major := 1, minor := 0, patch := 2, commitSha := "abcdef1234567890" }

/-- A release candidate with a three-character hash. -/
def shortHashCandidate : Version := { versionType := RC, commitSha := "abc" }

/-- Year and month of the instant in its location, as `Time.formatYearMonth`
computes them; `zone` gives the offset in seconds of the local zone. -/
def Time.yearMonth (zone : Int → Int) (t : Time) : Int × Int :=
  civilYearMonth ((t.unixSec + (if t.isLocal then zone t.unixSec else 0)) / 86400)

/-- A repository whose timestamp query answers with a text that is no number. -/
def repoBadTimestamp : Git := fun args =>
  if args = hashQuery then .ok "abcdef1234567890\n"
  else if args = timestampQuery then .ok "yesterday\n"
  else if args = exactTagQuery then .ok "v1.2.3\n"
  else .error "exit status 128"

/-- A repository whose timestamp query fails while every other query answers. -/
def repoNoTimestamp : Git := fun args =>
  if args = hashQuery then .ok "abcdef1234567890\n"
  else if args = timestampQuery then .error "exit status 128"
  else if args = exactTagQuery then .ok "v1.2.3\n"
  else if args = stableBranchQuery then .ok "heads/3-1-stable\n"
  else .ok "v3.1.4\n"

/-- A repository whose HEAD carries the tag `v01.2.3`. -/
def repoLeadingZeroTag : Git := fun args =>
  if args = hashQuery then .ok "abcdef1234567890\n"
  else if args = timestampQuery then .ok "1700000000\n"
  else if args = exactTagQuery then .ok "v01.2.3\n"
  else .error "exit status 128"

/-- A repository on a branch named `03-1-stable`, without tags. -/
def repoLeadingZeroMajor : Git := fun args =>
  if args = hashQuery then .ok "abcdef1234567890\n"
  else if args = timestampQuery then .ok "1700000000\n"
  else if args = stableBranchQuery then .ok "heads/03-1-stable\n"
  else .error "exit status 128"

/-- A repository on a branch named `3-01-stable`, without tags. -/
def repoLeadingZeroMinor : Git := fun args =>
  if args = hashQuery then .ok "abcdef1234567890\n"
  else if args = timestampQuery then .ok "1700000000\n"
  else if args = stableBranchQuery then .ok "heads/3-01-stable\n"
  else .error "exit status 128"

/-- A feature version committed on 2023-11-14. -/
def sampleFeature : Version :=
  { versionType := FEATURE, commitSha := "abcdef1234567890", date := Time.Unix 1700000000 }

/-- A feature version committed at the first second of the year 10000. -/
def farFutureFeature : Version :=
  { versionType := FEATURE, commitSha := "abcdef1234567890", date := Time.Unix 253402300800 }

/-- A release version. -/
def sampleRelease : Version :=
  { versionType := RELEASE, major := 1, minor := 2, patch := 3,
    commitSha := "abcdef1234567890", date := Time.Unix 1700000000 }

/-! ## The Gregorian calendar

An independent description of the calendar, against which the year and month
that `Time.formatYearMonth` prints are checked. -/

/-- Gregorian leap year. -/
def isLeapYear (y : Int) : Bool :=
  decide (y % 4 = 0) && (decide (y % 100 ≠ 0) || decide (y % 400 = 0))

/-- Days from January 1 of year 1 to January 1 of year `y`. -/
def daysBeforeYear (y : Int) : Int :=
  365 * (y - 1) + (y - 1) / 4 - (y - 1) / 100 + (y - 1) / 400

/-- Days from January 1 to the first day of month `m` of a year; month 13
stands for January of the next year. -/
def daysBeforeMonth (leap : Bool) (m : Int) : Int :=
  if m ≤ 1 then 0
  else if m = 2 then 31
  else (if leap then 1 else 0) +
    (if m = 3 then 59
    else if m = 4 then 90
    else if m = 5 then 120
    else if m = 6 then 151
    else if m = 7 then 181
    else if m = 8 then 212
    else if m = 9 then 243
    else if m = 10 then 273
    else if m = 11 then 304
    else if m = 12 then 334
    else 365)

/-- Days from 1970-01-01 to the first day of month `m` of year `y`. -/
def firstDayOfMonth (y m : Int) : Int :=
  daysBeforeYear y + daysBeforeMonth (isLeapYear y) m - 719162

/-- Seconds since the Unix epoch on the clock of the instant's location. -/
def Time.localSec (zone : Int → Int) (t : Time) : Int :=
  t.unixSec + (if t.isLocal then zone t.unixSec else 0)

/-- Day of the instant in its location, counted from 1970-01-01. -/
def Time.localDay (zone : Int → Int) (t : Time) : Int := t.localSec zone / 86400

/-- The instants on which Go's calendar arithmetic does not wrap around: the
local clock is not before the start of Go's absolute calendar, 9223372028715321600
seconds before the Unix epoch, and fits the signed 64-bit range. On these
instants `Time.formatYearMonth` is Go's `Format`. -/
def Time.Representable (zone : Int → Int) (t : Time) : Prop :=
  -9223372028715321600 ≤ t.localSec zone ∧ t.localSec zone < 2 ^ 63

/-- The text is a release tag `v<major>[.<minor>[.<patch>]]` with canonical
decimal components. -/
def IsVersionTagText (s : List Char) : Prop :=
  (∃ a, s = 'v' :: formatNat a) ∨
    (∃ a b, s = 'v' :: (formatNat a ++ '.' :: formatNat b)) ∨
    (∃ a b c, s = 'v' :: (formatNat a ++ '.' :: (formatNat b ++ '.' :: formatNat c)))

/-- The output of the exact-tag query parses as `v<major>[.<minor>[.<patch>]]`:
without the newlines around it, it is such a tag. -/
def ParsesAsVersionTag (out : String) : Prop := IsVersionTagText (trimNewlines out.toList)

/-- A repository on a branch `main` whose HEAD carries the tag `v01.2.3`. -/
def repoLeadingZeroTagOnMain : Git := fun args =>
  if args = hashQuery then .ok "abcdef1234567890\n"
  else if args = timestampQuery then .ok "1700000000\n"
  else if args = exactTagQuery then .ok "v01.2.3\n"
  else if args = stableBranchQuery then .ok "heads/main\n"
  else .error "exit status 128"

/-! ## Decimal digits -/

theorem digitChar_isDigit (d : Nat) (h : d < 10) : isDigit (digitChar d) = true := by
  interval_cases d <;> decide

theorem digitChar_isNonZeroDigit (d : Nat) (h0 : 0 < d) (h : d < 10) :
    isNonZeroDigit (digitChar d) = true := by
  interval_cases d <;> decide

theorem digitValue_digitChar (d : Nat) (h : d < 10) : digitValue (digitChar d) = d := by
  interval_cases d <;> decide

theorem isDigit_of_isNonZeroDigit (c : Char) (h : isNonZeroDigit c = true) :
    isDigit c = true := by
  simp only [isNonZeroDigit, isDigit, Bool.and_eq_true, decide_eq_true_eq] at h ⊢
  have h1 : '0'.toNat ≤ '1'.toNat := by decide
  exact ⟨le_trans h1 h.1, h.2⟩

theorem natDigits_acc (n : Nat) :
    ∀ fuel acc, n < fuel → natDigits fuel n acc = formatNat n ++ acc := by
  induction n using Nat.strong_induction_on with
  | _ n ih =>
    intro fuel acc hf
    cases fuel with
    | zero => omega
    | succ fuel =>
      by_cases h : n < 10
      · simp [formatNat, natDigits, h]
      · have hlt : n / 10 < n := by omega
        have h1 := ih (n / 10) hlt fuel (digitChar (n % 10) :: acc) (by omega)
        have h2 := ih (n / 10) hlt n [digitChar (n % 10)] hlt
        simp only [formatNat, natDigits, h, if_false] at h1 h2 ⊢
        rw [h1, h2]
        simp

theorem formatNat_small (n : Nat) (h : n < 10) : formatNat n = [digitChar n] := by
  simp [formatNat, natDigits, h]

theorem formatNat_step (n : Nat) (h : 10 ≤ n) :
    formatNat n = formatNat (n / 10) ++ [digitChar (n % 10)] := by
  have h' : ¬ n < 10 := by omega
  have h2 := natDigits_acc (n / 10) n [digitChar (n % 10)] (by omega)
  rw [← h2]
  simp [formatNat, natDigits, h']

theorem digitsValue_append (xs : List Char) (c : Char) :
    ∀ acc, digitsValue acc (xs ++ [c]) = 10 * digitsValue acc xs + digitValue c := by
  induction xs with
  | nil => intro acc; rfl
  | cons x xs ih =>
    intro acc
    show digitsValue (10 * acc + digitValue x) (xs ++ [c]) = _
    rw [ih]
    rfl

theorem digitsValue_formatNat (n : Nat) : digitsValue 0 (formatNat n) = n := by
  induction n using Nat.strong_induction_on with
  | _ n ih =>
    by_cases h : n < 10
    · rw [formatNat_small n h]
      show 10 * 0 + digitValue (digitChar n) = n
      rw [digitValue_digitChar n h]
      omega
    · have hm : n % 10 < 10 := Nat.mod_lt n (by omega)
      rw [formatNat_step n (by omega), digitsValue_append, ih (n / 10) (by omega),
        digitValue_digitChar (n % 10) hm]
      omega

theorem formatNat_all_isDigit (n : Nat) : (formatNat n).all isDigit = true := by
  induction n using Nat.strong_induction_on with
  | _ n ih =>
    by_cases h : n < 10
    · rw [formatNat_small n h]
      simp only [List.all_cons, List.all_nil, Bool.and_true]
      exact digitChar_isDigit n h
    · have hm : n % 10 < 10 := Nat.mod_lt n (by omega)
      rw [formatNat_step n (by omega)]
      simp only [List.all_append, List.all_cons, List.all_nil, Bool.and_true, Bool.and_eq_true]
      exact ⟨ih (n / 10) (by omega), digitChar_isDigit _ hm⟩

theorem formatNat_canonical (n : Nat) : Canonical (formatNat n) := by
  induction n using Nat.strong_induction_on with
  | _ n ih =>
    by_cases h : n < 10
    · rw [formatNat_small n h]
      by_cases h0 : n = 0
      · subst h0; exact Or.inl rfl
      · exact Or.inr ⟨digitChar n, [], rfl, digitChar_isNonZeroDigit n (by omega) h, rfl⟩
    · rw [formatNat_step n (by omega)]
      have hd := digitChar_isDigit (n % 10) (Nat.mod_lt n (by omega))
      rcases ih (n / 10) (by omega) with h0 | ⟨d, ds, hm, hd1, hds⟩
      · exfalso
        have hv := digitsValue_formatNat (n / 10)
        rw [h0] at hv
        have : digitsValue 0 ['0'] = 0 := by decide
        omega
      · refine Or.inr ⟨d, ds ++ [digitChar (n % 10)], by rw [hm]; rfl, hd1, ?_⟩
        simp only [List.all_append, List.all_cons, List.all_nil, Bool.and_true, hds, hd,
          Bool.and_self]

/-! ## Matching canonical numerals -/

theorem rests_seq (a b : Re) (s : List Char) :
    (Re.seq a b).rests s = (a.rests s).flatMap b.rests := rfl

theorem rests_alt (a b : Re) (s : List Char) :
    (Re.alt a b).rests s = a.rests s ++ b.rests s := rfl

theorem rests_eps (s : List Char) : Re.eps.rests s = [s] := rfl

theorem rests_chr_cons (c : Char) (s : List Char) : (Re.chr c).rests (c :: s) = [s] := by
  simp [Re.rests]

theorem rests_chr_ne (c d : Char) (s : List Char) (h : d ≠ c) : (Re.chr c).rests (d :: s) = [] := by
  simp [Re.rests, h]

theorem rests_chr_nil (c : Char) : (Re.chr c).rests [] = [] := rfl

theorem head?_flatMap_of_head {α β : Type} (f : α → List β) (l : List α) (a : α) (b : β)
    (hl : l.head? = some a) (hf : (f a).head? = some b) : (l.flatMap f).head? = some b := by
  cases l with
  | nil => simp at hl
  | cons x xs =>
    simp only [List.head?_cons, Option.some.injEq] at hl
    subst hl
    cases hfa : f x with
    | nil => rw [hfa] at hf; simp at hf
    | cons y ys =>
      rw [hfa] at hf
      simp only [List.head?_cons, Option.some.injEq] at hf
      subst hf
      simp [List.flatMap_cons, hfa]

theorem head?_append_of_head {α : Type} (l1 l2 : List α) (a : α) (h : l1.head? = some a) :
    (l1 ++ l2).head? = some a := by
  cases l1 with
  | nil => simp at h
  | cons x xs => simpa using h

theorem seq_rests_head (a b : Re) (s r1 r2 : List Char)
    (ha : (a.rests s).head? = some r1) (hb : (b.rests r1).head? = some r2) :
    ((Re.seq a b).rests s).head? = some r2 := by
  rw [rests_seq]
  exact head?_flatMap_of_head _ _ r1 r2 ha hb

theorem starRests_run (p : Char → Bool) (ds rest : List Char) (hds : ds.all p = true)
    (hrest : ∀ c, rest.head? = some c → p c = false) :
    (starRests p (ds ++ rest)).head? = some rest := by
  induction ds with
  | nil =>
    cases rest with
    | nil => rfl
    | cons c cs =>
      have hc : p c = false := hrest c rfl
      simp [starRests, hc]
  | cons d ds ih =>
    simp only [List.all_cons, Bool.and_eq_true] at hds
    have h := ih hds.2
    simp only [List.cons_append, starRests, hds.1, if_true]
    exact head?_append_of_head _ _ _ h

theorem numberRe_rests_nonDigit (c : Char) (cs : List Char) (hc : isDigit c = false) :
    numberRe.rests (c :: cs) = [] := by
  have h0 : c ≠ '0' := by
    intro h; subst h; exact absurd hc (by decide)
  have h1 : isNonZeroDigit c = false := by
    cases h : isNonZeroDigit c with
    | false => rfl
    | true => rw [isDigit_of_isNonZeroDigit c h] at hc; exact absurd hc (by decide)
  simp [numberRe, Re.rests, h0, h1]

theorem numberRe_rests_nil : numberRe.rests [] = [] := rfl

theorem numberRe_rests_canonical (m rest : List Char) (hm : Canonical m)
    (hrest : ∀ c, rest.head? = some c → isDigit c = false) :
    (numberRe.rests (m ++ rest)).head? = some rest := by
  rcases hm with h0 | ⟨d, ds, hm, hd, hds⟩
  · subst h0
    simp [numberRe, Re.rests]
  · subst hm
    have ht := starRests_run isDigit ds rest hds hrest
    have hd0 : d ≠ '0' := by
      intro h; subst h; exact absurd hd (by decide)
    simpa [numberRe, Re.rests, hd0, hd] using ht

theorem sepNumber_rests (sep : Char) (m rest : List Char) (hm : Canonical m)
    (hrest : ∀ c, rest.head? = some c → isDigit c = false) :
    ((Re.seq (.chr sep) numberRe).rests (sep :: (m ++ rest))).head? = some rest :=
  seq_rests_head (.chr sep) numberRe _ (m ++ rest) rest (by rw [rests_chr_cons]; rfl)
    (numberRe_rests_canonical m rest hm hrest)

theorem sepNumber_rests_none (sep : Char) (post : List Char) (h : NoNextPart sep post) :
    (Re.seq (.chr sep) numberRe).rests post = [] := by
  rw [rests_seq]
  cases post with
  | nil => rfl
  | cons d ds =>
    by_cases hd : d = sep
    · subst hd
      rw [rests_chr_cons]
      cases ds with
      | nil => rfl
      | cons c cs =>
        have hc := h c cs rfl
        simp [numberRe_rests_nonDigit c cs hc]
    · rw [rests_chr_ne sep d ds hd]; rfl

theorem head?_cons_sep (sep : Char) (hsep : isDigit sep = false) (tl : List Char) :
    ∀ c, (sep :: tl).head? = some c → isDigit c = false := by
  intro c hc
  simp only [List.head?_cons, Option.some.injEq] at hc
  subst hc; exact hsep

theorem upToTwo_rests_two (sep : Char) (m2 m3 rest : List Char) (hsep : isDigit sep = false)
    (h2 : Canonical m2) (h3 : Canonical m3)
    (hrest : ∀ c, rest.head? = some c → isDigit c = false) :
    ((Re.upToTwo (.seq (.chr sep) numberRe)).rests (sep :: (m2 ++ sep :: (m3 ++ rest)))).head?
      = some rest := by
  unfold Re.upToTwo
  rw [rests_alt]
  apply head?_append_of_head
  apply seq_rests_head _ _ _ (sep :: (m3 ++ rest))
  · exact sepNumber_rests sep m2 _ h2 (head?_cons_sep sep hsep _)
  · rw [rests_alt]
    apply head?_append_of_head
    exact sepNumber_rests sep m3 rest h3 hrest

theorem upToTwo_rests_one (sep : Char) (m2 rest : List Char)
    (h2 : Canonical m2)
    (hrest : ∀ c, rest.head? = some c → isDigit c = false) (hnext : NoNextPart sep rest) :
    ((Re.upToTwo (.seq (.chr sep) numberRe)).rests (sep :: (m2 ++ rest))).head? = some rest := by
  unfold Re.upToTwo
  rw [rests_alt]
  apply head?_append_of_head
  apply seq_rests_head _ _ _ rest
  · exact sepNumber_rests sep m2 _ h2 hrest
  · rw [rests_alt, sepNumber_rests_none sep rest hnext]; rfl

theorem upToTwo_rests_zero (sep : Char) (rest : List Char) (hnext : NoNextPart sep rest) :
    ((Re.upToTwo (.seq (.chr sep) numberRe)).rests rest).head? = some rest := by
  unfold Re.upToTwo
  rw [rests_alt, rests_seq, sepNumber_rests_none sep rest hnext]; rfl

theorem filterRe_rests_three (sep : Char) (m1 m2 m3 rest : List Char) (hsep : isDigit sep = false)
    (h1 : Canonical m1) (h2 : Canonical m2) (h3 : Canonical m3)
    (hrest : ∀ c, rest.head? = some c → isDigit c = false) :
    ((filterRe sep).rests (m1 ++ sep :: (m2 ++ sep :: (m3 ++ rest)))).head? = some rest :=
  seq_rests_head _ _ _ _ _
    (numberRe_rests_canonical m1 _ h1 (head?_cons_sep sep hsep _))
    (upToTwo_rests_two sep m2 m3 rest hsep h2 h3 hrest)

theorem filterRe_rests_two (sep : Char) (m1 m2 rest : List Char) (hsep : isDigit sep = false)
    (h1 : Canonical m1) (h2 : Canonical m2)
    (hrest : ∀ c, rest.head? = some c → isDigit c = false) (hnext : NoNextPart sep rest) :
    ((filterRe sep).rests (m1 ++ sep :: (m2 ++ rest))).head? = some rest :=
  seq_rests_head _ _ _ _ _
    (numberRe_rests_canonical m1 _ h1 (head?_cons_sep sep hsep _))
    (upToTwo_rests_one sep m2 rest h2 hrest hnext)

theorem filterRe_rests_one (sep : Char) (m1 rest : List Char)
    (h1 : Canonical m1)
    (hrest : ∀ c, rest.head? = some c → isDigit c = false) (hnext : NoNextPart sep rest) :
    ((filterRe sep).rests (m1 ++ rest)).head? = some rest :=
  seq_rests_head _ _ _ _ _
    (numberRe_rests_canonical m1 _ h1 hrest)
    (upToTwo_rests_zero sep rest hnext)

/-! ## Finding, splitting and parsing -/

theorem matchPrefix_of_head (r : Re) (m rest : List Char)
    (h : (r.rests (m ++ rest)).head? = some rest) : r.matchPrefix (m ++ rest) = some m := by
  unfold Re.matchPrefix
  cases hr : r.rests (m ++ rest) with
  | nil => rw [hr] at h; simp at h
  | cons x xs =>
    rw [hr] at h
    simp only [List.head?_cons, Option.some.injEq] at h
    subst h
    simp

theorem matchPrefix_of_nil (r : Re) (s : List Char) (h : r.rests s = []) :
    r.matchPrefix s = none := by
  unfold Re.matchPrefix
  rw [h]

theorem find_of_matchPrefix (r : Re) (s m : List Char) (h : r.matchPrefix s = some m) :
    r.find s = some m := by
  cases s with
  | nil => simpa [Re.find] using h
  | cons c cs => simp [Re.find, h]

theorem find_cons_of_nil (r : Re) (c : Char) (cs : List Char) (h : r.rests (c :: cs) = []) :
    r.find (c :: cs) = r.find cs := by
  simp [Re.find, matchPrefix_of_nil r _ h]

theorem filterRe_rests_nonDigit (sep c : Char) (cs : List Char) (hc : isDigit c = false) :
    (filterRe sep).rests (c :: cs) = [] := by
  unfold filterRe
  rw [rests_seq, numberRe_rests_nonDigit c cs hc]
  rfl

theorem filterRe_find_skip (sep : Char) (pre s : List Char)
    (hpre : ∀ c ∈ pre, isDigit c = false) :
    (filterRe sep).find (pre ++ s) = (filterRe sep).find s := by
  induction pre with
  | nil => rfl
  | cons c cs ih =>
    rw [List.cons_append, find_cons_of_nil _ _ _ (filterRe_rests_nonDigit sep c _
      (hpre c (List.mem_cons_self c cs)))]
    exact ih (fun d hd => hpre d (List.mem_cons_of_mem c hd))

theorem filterRe_FindString (sep : Char) (pre m rest : List Char)
    (hpre : ∀ c ∈ pre, isDigit c = false)
    (h : ((filterRe sep).rests (m ++ rest)).head? = some rest) :
    (filterRe sep).FindString (pre ++ (m ++ rest)) = m := by
  unfold Re.FindString
  rw [filterRe_find_skip sep pre _ hpre,
    find_of_matchPrefix _ _ _ (matchPrefix_of_head _ m rest h)]

theorem splitChars_noSep (sep : Char) (m : List Char) (h : ∀ c ∈ m, c ≠ sep) :
    splitChars sep m = [m] := by
  induction m with
  | nil => rfl
  | cons c cs ih =>
    have hc : c ≠ sep := h c (List.mem_cons_self c cs)
    have := ih (fun d hd => h d (List.mem_cons_of_mem c hd))
    simp [splitChars, hc, this]

theorem splitChars_append (sep : Char) (m rest : List Char) (h : ∀ c ∈ m, c ≠ sep) :
    splitChars sep (m ++ sep :: rest) = m :: splitChars sep rest := by
  induction m with
  | nil => simp [splitChars]
  | cons c cs ih =>
    have hc : c ≠ sep := h c (List.mem_cons_self c cs)
    have := ih (fun d hd => h d (List.mem_cons_of_mem c hd))
    simp [splitChars, hc, this]

theorem canonical_all_isDigit (m : List Char) (hm : Canonical m) : ∀ c ∈ m, isDigit c = true := by
  rcases hm with h0 | ⟨d, ds, hm, hd, hds⟩
  · subst h0
    intro c hc
    simp only [List.mem_singleton] at hc
    subst hc; decide
  · subst hm
    intro c hc
    rcases List.mem_cons.mp hc with h | h
    · subst h; exact isDigit_of_isNonZeroDigit _ hd
    · exact List.all_eq_true.mp hds c h

theorem canonical_noSep (sep : Char) (hsep : isDigit sep = false) (m : List Char)
    (hm : Canonical m) : ∀ c ∈ m, c ≠ sep := by
  intro c hc h
  have := canonical_all_isDigit m hm c hc
  rw [h, hsep] at this
  exact absurd this (by decide)

theorem canonical_ne_nil (m : List Char) (hm : Canonical m) : m ≠ [] := by
  rcases hm with h0 | ⟨d, ds, hm, _, _⟩
  · subst h0; simp
  · subst hm; simp

theorem parseMagnitude_canonical (m : List Char) (hm : Canonical m) :
    parseMagnitude m = .ok (digitsValue 0 m) := by
  have hne := canonical_ne_nil m hm
  have hall : m.all isDigit = true := List.all_eq_true.mpr (canonical_all_isDigit m hm)
  unfold parseMagnitude
  cases m with
  | nil => exact absurd rfl hne
  | cons d ds => simp [hall]

theorem parseInt_canonical (bitSize : Nat) (m : List Char) (hm : Canonical m) :
    parseInt bitSize m
      = if digitsValue 0 m ≥ 2 ^ (bitSize - 1) then .error "value out of range"
        else .ok (digitsValue 0 m : Int) := by
  have hmag := parseMagnitude_canonical m hm
  have hdig := canonical_all_isDigit m hm
  cases m with
  | nil => exact absurd rfl (canonical_ne_nil [] hm)
  | cons d ds =>
    have hd := hdig d (List.mem_cons_self d ds)
    have h1 : d ≠ '-' := by
      intro h; subst h; exact absurd hd (by decide)
    have h2 : d ≠ '+' := by
      intro h; subst h; exact absurd hd (by decide)
    unfold parseInt
    split
    · rename_i heq; exact absurd heq (by simp)
    · rename_i heq
      simp only [List.cons.injEq] at heq
      exact absurd heq.1 h1
    · rename_i heq
      simp only [List.cons.injEq] at heq
      exact absurd heq.1 h2
    · rw [hmag]

theorem parseNumber_canonical (m : List Char) (hm : Canonical m)
    (hv : digitsValue 0 m < 2 ^ 31) : parseNumber m = .ok (digitsValue 0 m : Int) := by
  unfold parseNumber
  rw [parseInt_canonical 32 m hm]
  have : ¬ digitsValue 0 m ≥ 2 ^ (32 - 1) := by
    simp only [Nat.add_one_sub_one, ge_iff_le, not_le]; exact hv
  rw [if_neg this]

theorem parseNumber_canonical_range (m : List Char) (hm : Canonical m)
    (hv : 2 ^ 31 ≤ digitsValue 0 m) : parseNumber m = .error "value out of range" := by
  unfold parseNumber
  rw [parseInt_canonical 32 m hm]
  have : digitsValue 0 m ≥ 2 ^ (32 - 1) := hv
  rw [if_pos this]

theorem parseNumber_formatNat (n : Nat) (hn : n < 2 ^ 31) :
    parseNumber (formatNat n) = .ok (n : Int) := by
  have := parseNumber_canonical (formatNat n) (formatNat_canonical n)
    (by rw [digitsValue_formatNat]; exact hn)
  rw [digitsValue_formatNat] at this
  exact this

/-! ## `createVersion` on canonical components -/

theorem createVersion_three (sep : Char) (hsep : isDigit sep = false) (pre m1 m2 m3 post : List Char)
    (hpre : ∀ c ∈ pre, isDigit c = false)
    (h1 : Canonical m1) (h2 : Canonical m2) (h3 : Canonical m3)
    (hpost : ∀ c, post.head? = some c → isDigit c = false) :
    createVersion (String.mk (pre ++ (m1 ++ sep :: (m2 ++ sep :: (m3 ++ post))))) sep
      = match parseNumber m3 with
        | .error e => .error e
        | .ok patch => .ok { patch := patch } := by
  have hfind : (filterRe sep).FindString (pre ++ (m1 ++ sep :: (m2 ++ sep :: (m3 ++ post))))
      = m1 ++ sep :: (m2 ++ sep :: m3) := by
    have := filterRe_FindString sep pre (m1 ++ sep :: (m2 ++ sep :: m3)) post hpre
      (by simpa using filterRe_rests_three sep m1 m2 m3 post hsep h1 h2 h3 hpost)
    simpa using this
  have hsplit : splitChars sep (m1 ++ sep :: (m2 ++ sep :: m3)) = [m1, m2, m3] := by
    rw [splitChars_append sep m1 _ (canonical_noSep sep hsep m1 h1),
      splitChars_append sep m2 _ (canonical_noSep sep hsep m2 h2),
      splitChars_noSep sep m3 (canonical_noSep sep hsep m3 h3)]
  unfold createVersion
  simp only [String.toList]
  rw [hfind, hsplit]

theorem createVersion_two (sep : Char) (hsep : isDigit sep = false) (pre m1 m2 post : List Char)
    (hpre : ∀ c ∈ pre, isDigit c = false)
    (h1 : Canonical m1) (h2 : Canonical m2)
    (hpost : ∀ c, post.head? = some c → isDigit c = false) (hnext : NoNextPart sep post) :
    createVersion (String.mk (pre ++ (m1 ++ sep :: (m2 ++ post)))) sep
      = match parseNumber m2 with
        | .error e => .error e
        | .ok minor => .ok { minor := minor } := by
  have hfind : (filterRe sep).FindString (pre ++ (m1 ++ sep :: (m2 ++ post)))
      = m1 ++ sep :: m2 := by
    have := filterRe_FindString sep pre (m1 ++ sep :: m2) post hpre
      (by simpa using filterRe_rests_two sep m1 m2 post hsep h1 h2 hpost hnext)
    simpa using this
  have hsplit : splitChars sep (m1 ++ sep :: m2) = [m1, m2] := by
    rw [splitChars_append sep m1 _ (canonical_noSep sep hsep m1 h1),
      splitChars_noSep sep m2 (canonical_noSep sep hsep m2 h2)]
  unfold createVersion
  simp only [String.toList]
  rw [hfind, hsplit]

theorem createVersion_one (sep : Char) (hsep : isDigit sep = false) (pre m1 post : List Char)
    (hpre : ∀ c ∈ pre, isDigit c = false)
    (h1 : Canonical m1)
    (hpost : ∀ c, post.head? = some c → isDigit c = false) (hnext : NoNextPart sep post) :
    createVersion (String.mk (pre ++ (m1 ++ post))) sep
      = match parseNumber m1 with
        | .error e => .error e
        | .ok major => .ok { major := major } := by
  have hfind : (filterRe sep).FindString (pre ++ (m1 ++ post)) = m1 :=
    filterRe_FindString sep pre m1 post hpre (filterRe_rests_one sep m1 post h1 hpost hnext)
  have hsplit : splitChars sep m1 = [m1] :=
    splitChars_noSep sep m1 (canonical_noSep sep hsep m1 h1)
  unfold createVersion
  simp only [String.toList]
  rw [hfind, hsplit]

/-! ## What a match looks like -/

theorem mem_rests_chr (c : Char) (s rest : List Char) (h : rest ∈ (Re.chr c).rests s) :
    s = c :: rest := by
  cases s with
  | nil => simp [Re.rests] at h
  | cons d ds =>
    by_cases hd : d = c
    · subst hd
      rw [rests_chr_cons] at h
      simp only [List.mem_singleton] at h
      rw [h]
    · rw [rests_chr_ne c d ds hd] at h
      simp at h

theorem mem_rests_seq (a b : Re) (s rest : List Char) (h : rest ∈ (Re.seq a b).rests s) :
    ∃ mid, mid ∈ a.rests s ∧ rest ∈ b.rests mid := by
  rw [rests_seq] at h
  exact List.mem_flatMap.mp h

theorem mem_starRests (p : Char → Bool) (s rest : List Char) (h : rest ∈ starRests p s) :
    ∃ ds, s = ds ++ rest ∧ ds.all p = true := by
  induction s with
  | nil =>
    simp only [starRests, List.mem_singleton] at h
    exact ⟨[], by rw [h]; rfl, rfl⟩
  | cons c cs ih =>
    by_cases hc : p c = true
    · simp only [starRests, hc, if_true, List.mem_append, List.mem_singleton] at h
      rcases h with h | h
      · obtain ⟨ds, hds, hall⟩ := ih h
        exact ⟨c :: ds, by rw [hds]; rfl, by simp [hc, hall]⟩
      · exact ⟨[], by rw [h]; rfl, rfl⟩
    · have hc' : p c = false := by simpa using hc
      simp only [starRests, hc', Bool.false_eq_true, if_false, List.mem_singleton] at h
      exact ⟨[], by rw [h]; rfl, rfl⟩

theorem mem_rests_numberRe (s rest : List Char) (h : rest ∈ numberRe.rests s) :
    ∃ m, Canonical m ∧ s = m ++ rest := by
  unfold numberRe at h
  rw [rests_alt] at h
  rcases List.mem_append.mp h with h | h
  · exact ⟨['0'], Or.inl rfl, mem_rests_chr '0' s rest h⟩
  · obtain ⟨mid, h1, h2⟩ := mem_rests_seq _ _ _ _ h
    cases s with
    | nil => simp [Re.rests] at h1
    | cons d ds =>
      by_cases hd : isNonZeroDigit d = true
      · simp only [Re.rests, hd, if_true, List.mem_singleton] at h1
        subst h1
        obtain ⟨ts, hts, hall⟩ := mem_starRests isDigit mid rest h2
        exact ⟨d :: ts, Or.inr ⟨d, ts, rfl, hd, hall⟩, by rw [hts]; rfl⟩
      · simp [Re.rests, hd] at h1

theorem mem_rests_word (w s rest : List Char) (h : rest ∈ (Re.word w).rests s) :
    s = w ++ rest := by
  induction w generalizing s with
  | nil =>
    simp only [Re.word, rests_eps, List.mem_singleton] at h
    rw [h]; rfl
  | cons c cs ih =>
    obtain ⟨mid, h1, h2⟩ := mem_rests_seq _ _ _ _ h
    rw [mem_rests_chr c s mid h1, ih mid h2]
    rfl

theorem mem_rests_eol (s rest : List Char) (h : rest ∈ Re.eol.rests s) :
    s = rest ∧ (rest = [] ∨ rest.head? = some '\n') := by
  cases s with
  | nil =>
    simp only [Re.rests, List.mem_singleton] at h
    exact ⟨h.symm, Or.inl h⟩
  | cons d ds =>
    by_cases hd : d = '\n'
    · simp only [Re.rests, hd, if_true, List.mem_singleton] at h
      subst h
      exact ⟨by rw [hd], Or.inr rfl⟩
    · simp [Re.rests, hd] at h

theorem matchPrefix_some (r : Re) (s m : List Char) (h : r.matchPrefix s = some m) :
    ∃ rest, rest ∈ r.rests s ∧ m = s.take (s.length - rest.length) := by
  unfold Re.matchPrefix at h
  cases hr : r.rests s with
  | nil => rw [hr] at h; simp at h
  | cons x xs =>
    rw [hr] at h
    simp only [Option.some.injEq] at h
    exact ⟨x, List.mem_cons_self x xs, h.symm⟩

theorem find_some (r : Re) (s m : List Char) (h : r.find s = some m) :
    ∃ pre tl, s = pre ++ tl ∧ r.matchPrefix tl = some m := by
  induction s with
  | nil => exact ⟨[], [], rfl, by simpa [Re.find] using h⟩
  | cons c cs ih =>
    cases hm : r.matchPrefix (c :: cs) with
    | some x =>
      simp only [Re.find, hm, Option.some.injEq] at h
      subst h
      exact ⟨[], c :: cs, rfl, hm⟩
    | none =>
      simp only [Re.find, hm] at h
      obtain ⟨pre, tl, hs, ht⟩ := ih h
      exact ⟨c :: pre, tl, by rw [hs]; rfl, ht⟩

theorem find_sound (r : Re) (s m : List Char) (h : r.find s = some m)
    (hsuffix : ∀ tl rest, rest ∈ r.rests tl → ∃ x, tl = x ++ rest) :
    ∃ pre rest, s = pre ++ (m ++ rest) ∧ rest ∈ r.rests (m ++ rest) := by
  obtain ⟨pre, tl, hs, hmp⟩ := find_some r s m h
  obtain ⟨rest, hrest, hm⟩ := matchPrefix_some r tl m hmp
  obtain ⟨x, hx⟩ := hsuffix tl rest hrest
  have hmx : m = x := by
    rw [hm, hx]; simp
  subst hmx
  exact ⟨pre, rest, by rw [hs, hx], by rw [← hx]; exact hrest⟩

theorem mem_rests_releaseTag (s rest : List Char) (h : rest ∈ releaseTagRegexp.rests s) :
    ∃ m1 m2 m3, Canonical m1 ∧ Canonical m2 ∧ Canonical m3 ∧
      s = 'v' :: (m1 ++ '.' :: (m2 ++ '.' :: (m3 ++ rest))) := by
  unfold releaseTagRegexp at h
  obtain ⟨s1, h1, h⟩ := mem_rests_seq _ _ _ _ h
  obtain ⟨s2, h2, h⟩ := mem_rests_seq _ _ _ _ h
  obtain ⟨s3, h3, h⟩ := mem_rests_seq _ _ _ _ h
  obtain ⟨s4, h4, h⟩ := mem_rests_seq _ _ _ _ h
  obtain ⟨s5, h5, h⟩ := mem_rests_seq _ _ _ _ h
  obtain ⟨m1, c1, e1⟩ := mem_rests_numberRe _ _ h2
  obtain ⟨m2, c2, e2⟩ := mem_rests_numberRe _ _ h4
  obtain ⟨m3, c3, e3⟩ := mem_rests_numberRe _ _ h
  refine ⟨m1, m2, m3, c1, c2, c3, ?_⟩
  rw [mem_rests_chr _ _ _ h1, e1, mem_rests_chr _ _ _ h3, e2, mem_rests_chr _ _ _ h5, e3]

theorem mem_rests_rcBranch (s rest : List Char) (h : rest ∈ rcBranchRegexp.rests s) :
    ∃ m1 m2, Canonical m1 ∧ Canonical m2 ∧
      s = m1 ++ '-' :: (m2 ++ ("-stable".toList ++ rest)) ∧
      (rest = [] ∨ rest.head? = some '\n') := by
  unfold rcBranchRegexp at h
  obtain ⟨s1, h1, h⟩ := mem_rests_seq _ _ _ _ h
  obtain ⟨s2, h2, h⟩ := mem_rests_seq _ _ _ _ h
  obtain ⟨s3, h3, h⟩ := mem_rests_seq _ _ _ _ h
  obtain ⟨s4, h4, h⟩ := mem_rests_seq _ _ _ _ h
  obtain ⟨m1, c1, e1⟩ := mem_rests_numberRe _ _ h1
  obtain ⟨m2, c2, e2⟩ := mem_rests_numberRe _ _ h3
  obtain ⟨e5, hrest⟩ := mem_rests_eol _ _ h
  refine ⟨m1, m2, c1, c2, ?_, hrest⟩
  rw [e1, mem_rests_chr _ _ _ h2, e2, mem_rests_word _ _ _ h4, e5]

theorem releaseTag_find_sound (s m : List Char) (h : releaseTagRegexp.find s = some m) :
    ∃ m1 m2 m3, Canonical m1 ∧ Canonical m2 ∧ Canonical m3 ∧
      m = 'v' :: (m1 ++ '.' :: (m2 ++ '.' :: m3)) := by
  obtain ⟨pre, rest, _, hr⟩ := find_sound _ s m h (by
    intro tl rest hr
    obtain ⟨m1, m2, m3, _, _, _, e⟩ := mem_rests_releaseTag tl rest hr
    exact ⟨'v' :: (m1 ++ '.' :: (m2 ++ '.' :: m3)), by rw [e]; simp⟩)
  obtain ⟨m1, m2, m3, c1, c2, c3, e⟩ := mem_rests_releaseTag _ rest hr
  refine ⟨m1, m2, m3, c1, c2, c3, ?_⟩
  have e' : m ++ rest = ('v' :: (m1 ++ '.' :: (m2 ++ '.' :: m3))) ++ rest := by
    rw [e]; simp
  exact List.append_cancel_right e'

theorem rcBranch_find_sound (s m : List Char) (h : rcBranchRegexp.find s = some m) :
    ∃ pre m1 m2 post, Canonical m1 ∧ Canonical m2 ∧
      m = m1 ++ '-' :: (m2 ++ "-stable".toList) ∧ s = pre ++ (m ++ post) ∧
      (post = [] ∨ post.head? = some '\n') := by
  obtain ⟨pre, rest, hs, hr⟩ := find_sound _ s m h (by
    intro tl rest hr
    obtain ⟨m1, m2, _, _, e, _⟩ := mem_rests_rcBranch tl rest hr
    exact ⟨m1 ++ '-' :: (m2 ++ "-stable".toList), by rw [e]; simp⟩)
  obtain ⟨m1, m2, c1, c2, e, hrest⟩ := mem_rests_rcBranch _ rest hr
  refine ⟨pre, m1, m2, rest, c1, c2, ?_, hs, hrest⟩
  have e' : m ++ rest = (m1 ++ '-' :: (m2 ++ "-stable".toList)) ++ rest := by
    rw [e]; simp
  exact List.append_cancel_right e'

theorem digitChar_digitValue (c : Char) (h : isDigit c = true) : digitChar (digitValue c) = c := by
  simp only [isDigit, Bool.and_eq_true, decide_eq_true_eq] at h
  unfold digitChar digitValue
  have h48 : '0'.toNat = 48 := by decide
  have h57 : '9'.toNat = 57 := by decide
  rw [h48] at h ⊢
  have : 48 + (c.toNat - 48) = c.toNat := by omega
  rw [this]
  exact Char.ofNat_toNat c

theorem digitValue_lt (c : Char) (h : isDigit c = true) : digitValue c < 10 := by
  simp only [isDigit, Bool.and_eq_true, decide_eq_true_eq] at h
  unfold digitValue
  have h48 : '0'.toNat = 48 := by decide
  have h57 : '9'.toNat = 57 := by decide
  omega

theorem digitValue_pos (c : Char) (h : isNonZeroDigit c = true) : 0 < digitValue c := by
  simp only [isNonZeroDigit, Bool.and_eq_true, decide_eq_true_eq] at h
  unfold digitValue
  have h48 : '0'.toNat = 48 := by decide
  have h49 : '1'.toNat = 49 := by decide
  omega

theorem formatNat_digitsValue_cons (d : Char) (hd : isNonZeroDigit d = true) (ds : List Char) :
    ds.all isDigit = true →
      formatNat (digitsValue 0 (d :: ds)) = d :: ds ∧ 1 ≤ digitsValue 0 (d :: ds) := by
  induction ds using List.reverseRecOn with
  | nil =>
    intro _
    have hdd := isDigit_of_isNonZeroDigit d hd
    have hv : digitsValue 0 [d] = digitValue d := by
      show 10 * 0 + digitValue d = digitValue d
      omega
    rw [hv, formatNat_small _ (digitValue_lt d hdd), digitChar_digitValue d hdd]
    exact ⟨rfl, digitValue_pos d hd⟩
  | append_singleton ds c ih =>
    intro hall
    simp only [List.all_append, List.all_cons, List.all_nil, Bool.and_true,
      Bool.and_eq_true] at hall
    obtain ⟨h1, h2⟩ := ih hall.1
    have hc := digitValue_lt c hall.2
    have hv : digitsValue 0 (d :: (ds ++ [c])) = 10 * digitsValue 0 (d :: ds) + digitValue c := by
      rw [← List.cons_append, digitsValue_append]
    rw [hv]
    constructor
    · rw [formatNat_step _ (by omega)]
      have e1 : (10 * digitsValue 0 (d :: ds) + digitValue c) / 10 = digitsValue 0 (d :: ds) := by
        omega
      have e2 : (10 * digitsValue 0 (d :: ds) + digitValue c) % 10 = digitValue c := by
        omega
      rw [e1, e2, h1, digitChar_digitValue c hall.2]
      rfl
    · omega

theorem formatNat_digitsValue (m : List Char) (hm : Canonical m) :
    formatNat (digitsValue 0 m) = m := by
  rcases hm with h0 | ⟨d, ds, hm, hd, hds⟩
  · subst h0; decide
  · subst hm
    exact (formatNat_digitsValue_cons d hd ds hds).1

/-! ## Texts of tags and branch names -/

theorem releaseTagText_toList (a b c : Nat) :
    (releaseTagText a b c).toList
      = 'v' :: (formatNat a ++ '.' :: (formatNat b ++ '.' :: formatNat c)) := by
  simp [releaseTagText, decimal, String.toList]

theorem stableBranchText_toList (M m : Nat) :
    (stableBranchText M m).toList
      = formatNat M ++ '-' :: (formatNat m ++ "-stable".toList) := by
  simp [stableBranchText, decimal, String.toList]

theorem string_mk_toList (s : String) : String.mk s.toList = s := rfl

theorem wrapInt_succ (c : Nat) (hc : c < 2 ^ 31) : wrapInt ((c : Int) + 1) = (c : Int) + 1 := by
  unfold wrapInt
  have : (c : Int) < 2 ^ 31 := by exact_mod_cast hc
  norm_num at this ⊢
  omega

/-! ## The classifier, step by step -/

theorem createVersion_releaseTag (a b c : Nat) :
    createVersion (String.mk (releaseTagText a b c).toList) '.'
      = match parseNumber (formatNat c) with
        | .error e => .error e
        | .ok patch => .ok { patch := patch } := by
  rw [releaseTagText_toList]
  have := createVersion_three '.' (by decide) ['v'] (formatNat a) (formatNat b) (formatNat c) []
    (by intro c hc; simp only [List.mem_singleton] at hc; subst hc; decide)
    (formatNat_canonical a) (formatNat_canonical b) (formatNat_canonical c)
    (by intro c hc; simp at hc)
  simpa using this

theorem getPrevRelease_of_tag (git : Git) (out : String) (a b c : Nat)
    (hq : git recentTagQuery = .ok out) (htag : ContainsReleaseTag out a b c) :
    getPrevRelease git
      = if c < 2 ^ 31 then .ok { versionType := RELEASE, patch := c }
        else .error "value out of range" := by
  unfold getPrevRelease
  rw [hq]
  unfold ContainsReleaseTag at htag
  simp only [htag]
  have hlen : ¬ (releaseTagText a b c).toList.length = 0 := by
    rw [releaseTagText_toList]; simp
  rw [if_neg hlen, createVersion_releaseTag]
  by_cases hc : c < 2 ^ 31
  · rw [parseNumber_formatNat c hc, if_pos hc]
  · rw [parseNumber_canonical_range (formatNat c) (formatNat_canonical c)
      (by rw [digitsValue_formatNat]; omega), if_neg hc]

theorem FindString_eq_of_ne_nil (r : Re) (s : List Char) (h : r.FindString s ≠ []) :
    r.find s = some (r.FindString s) := by
  unfold Re.FindString at h ⊢
  cases hf : r.find s with
  | none => rw [hf] at h; exact absurd rfl h
  | some m => rfl

theorem containsReleaseTag_of_found (out : String)
    (h : releaseTagRegexp.FindString out.toList ≠ []) :
    ∃ a b c, ContainsReleaseTag out a b c := by
  obtain ⟨m1, m2, m3, c1, c2, c3, e⟩ :=
    releaseTag_find_sound _ _ (FindString_eq_of_ne_nil _ _ h)
  refine ⟨digitsValue 0 m1, digitsValue 0 m2, digitsValue 0 m3, ?_⟩
  unfold ContainsReleaseTag
  rw [releaseTagText_toList, formatNat_digitsValue m1 c1, formatNat_digitsValue m2 c2,
    formatNat_digitsValue m3 c3]
  exact e

theorem getPrevRelease_error_of_no_tag (git : Git)
    (h : ∀ out a b c, git recentTagQuery = .ok out → ContainsReleaseTag out a b c → ¬ c < 2 ^ 31) :
    ∃ e, getPrevRelease git = .error e := by
  cases hq : git recentTagQuery with
  | error e => exact ⟨e, by simp only [getPrevRelease, hq]⟩
  | ok out =>
    by_cases hf : releaseTagRegexp.FindString out.toList = []
    · exact ⟨"unsupported version tag", by
        simp only [getPrevRelease, hq, hf, List.length_nil, if_true]⟩
    · obtain ⟨a, b, c, htag⟩ := containsReleaseTag_of_found out hf
      have hc := h out a b c hq htag
      exact ⟨"value out of range", by rw [getPrevRelease_of_tag git out a b c hq htag, if_neg hc]⟩

theorem getReleaseBranch_error_of_no_name (git : Git)
    (h : ∀ out, git stableBranchQuery = .ok out → ¬ ContainsStableName out) :
    ∃ e, getReleaseBranch git = .error e := by
  cases hq : git stableBranchQuery with
  | error e => exact ⟨e, by simp only [getReleaseBranch, hq]⟩
  | ok out =>
    by_cases hf : rcBranchRegexp.FindString out.toList = []
    · exact ⟨"invalid rc branch name", by
        simp only [getReleaseBranch, hq, hf, List.length_nil, if_true]⟩
    · exfalso
      obtain ⟨pre, m1, m2, post, c1, c2, e, hs, hpost⟩ :=
        rcBranch_find_sound _ _ (FindString_eq_of_ne_nil _ _ hf)
      apply h out hq
      refine ⟨pre, digitsValue 0 m1, digitsValue 0 m2, post, ?_, hpost⟩
      rw [stableBranchText_toList, formatNat_digitsValue m1 c1, formatNat_digitsValue m2 c2,
        hs, e]

theorem versionFromBranch_feature (git : Git) (v : Version) (e : String)
    (h : getReleaseBranch git = .error e) :
    versionFromBranch git v = { v with versionType := FEATURE } := by
  simp only [versionFromBranch, h]

theorem versionFromBranch_type (git : Git) (v : Version) :
    (versionFromBranch git v).versionType = FEATURE ∨
      ((versionFromBranch git v).versionType = RC ∧
        (versionFromBranch git v).patch
          = match getPrevRelease git with
            | .ok prevRelease => wrapInt (prevRelease.patch + 1)
            | .error _ => 1) := by
  unfold versionFromBranch
  cases getReleaseBranch git with
  | error e => exact Or.inl rfl
  | ok rc =>
    right
    cases getPrevRelease git with
    | error e => exact ⟨rfl, rfl⟩
    | ok p => exact ⟨rfl, rfl⟩

theorem version_rc_patch (git : Git) (v : Version) (hv : version git = some v)
    (hrc : v.versionType = RC) :
    v.patch = match getPrevRelease git with
      | .ok prevRelease => wrapInt (prevRelease.patch + 1)
      | .error _ => 1 := by
  have hFR : FEATURE ≠ RC := by decide
  have hIR : INIT ≠ RC := by decide
  have hRR : RELEASE ≠ RC := by decide
  have key : ∀ base : Version, v = versionFromBranch git base →
      v.patch = match getPrevRelease git with
        | .ok prevRelease => wrapInt (prevRelease.patch + 1)
        | .error _ => 1 := by
    intro base hb
    rcases versionFromBranch_type git base with h | ⟨_, h⟩
    · rw [← hb, hrc] at h; exact absurd h.symm hFR
    · rw [← hb] at h; exact h
  unfold version at hv
  cases hh : git hashQuery with
  | error e =>
    simp only [hh, Option.some.injEq] at hv
    rw [← hv] at hrc; exact absurd hrc hIR
  | ok sha =>
    cases hts : git timestampQuery with
    | error e =>
      simp only [hh, hts, Option.some.injEq] at hv
      rw [← hv] at hrc; exact absurd hrc hIR
    | ok ts =>
      cases ht : parseInt 64 (trimNewlines ts.toList) with
      | error e => simp only [hh, hts, ht] at hv; exact absurd hv (by simp)
      | ok t =>
        cases htag : git exactTagQuery with
        | error e =>
          simp only [hh, hts, ht, htag, Option.some.injEq] at hv
          exact key _ hv.symm
        | ok tag =>
          cases hcv : createVersion tag '.' with
          | error e =>
            simp only [hh, hts, ht, htag, hcv, Option.some.injEq] at hv
            exact key _ hv.symm
          | ok r =>
            simp only [hh, hts, ht, htag, hcv, Option.some.injEq] at hv
            rw [← hv] at hrc; exact absurd hrc hRR

/-! ## Properties of the program -/

/-- C1 (defect of the code): `createVersion("v1.2.3", ".")` succeeds with
major 0, minor 0 and patch 3, not with major 1, minor 2 and patch 3: the
`switch` on the number of parts assigns the last component only. -/
theorem createVersion_three_parts_sets_patch_only :
    createVersion "v1.2.3" '.' = .ok { major := 0, minor := 0, patch := 3 } ∧
      createVersion "v1.2.3" '.' ≠ .ok { major := 1, minor := 2, patch := 3 } := by
  constructor
  · rfl
  · decide

/-- C2 (defect of the code): for a HEAD tagged `v1.2.3` the classifier returns
state `release` with major 0, minor 0 and patch 3, rendered `v0.0.3` and
`/v0.0.3`, where the claim expects 1.2.3. -/
theorem version_tagged_head_loses_major_minor :
    version repoTagged
        = some { versionType := RELEASE, major := 0, minor := 0, patch := 3,
                 commitSha := "abcdef1234567890\n", date := Time.Unix 1700000000 } ∧
      (version repoTagged).map printVersion = some (some "v0.0.3") ∧
      ∀ zone, (version repoTagged).map (namespaceOf zone) = some "/v0.0.3" := by
  refine ⟨rfl, rfl, ?_⟩
  intro zone
  rfl

/-- C3: when the hash and timestamp queries succeed with a numeric timestamp
and the exact-tag query returns `v2.0.0` (with or without the newline that ends
the output), `version` returns a value in state `release`, whatever the
stable-branch and most-recent-release-tag queries return. -/
theorem release_takes_precedence (git : Git) (h ts : String) (t : Int)
    (hh : git hashQuery = .ok h) (hts : git timestampQuery = .ok ts)
    (ht : parseInt 64 (trimNewlines ts.toList) = .ok t)
    (htag : git exactTagQuery = .ok "v2.0.0" ∨ git exactTagQuery = .ok "v2.0.0\n") :
    ∃ v, version git = some v ∧ v.versionType = RELEASE := by
  have h1 : createVersion "v2.0.0" '.' = .ok {} := rfl
  have h2 : createVersion "v2.0.0\n" '.' = .ok {} := rfl
  unfold version
  rcases htag with htag | htag
  · simp only [hh, hts, ht, htag, h1]
    exact ⟨_, rfl, rfl⟩
  · simp only [hh, hts, ht, htag, h2]
    exact ⟨_, rfl, rfl⟩

/-- Instance of C3: a HEAD tagged `v2.0.0` on the stable branch `2-0-stable`. -/
theorem release_takes_precedence_witness :
    repoTaggedOnStable stableBranchQuery = .ok "heads/2-0-stable\n" ∧
      ∃ v, version repoTaggedOnStable = some v ∧ v.versionType = RELEASE :=
  ⟨rfl, release_takes_precedence repoTaggedOnStable "abcdef1234567890\n" "1700000000\n"
    1700000000 rfl rfl rfl (Or.inl rfl)⟩

/-- C4 (defect of the code): on the stable branch `3-1-stable` with most recent
release tag `v3.1.4` and no exact tag, `version` returns a release candidate
with major 0, minor 1 and patch 5; the claim expects major 3. -/
theorem version_stable_branch_loses_major :
    repoStable stableBranchQuery = .ok "heads/3-1-stable\n" ∧
      repoStable recentTagQuery = .ok "v3.1.4\n" ∧
      version repoStable
        = some { versionType := RC, major := 0, minor := 1, patch := 5,
                 commitSha := "abcdef1234567890\n", date := Time.Unix 1700000000 } :=
  ⟨rfl, rfl, rfl⟩

/-- C5: whenever `version` returns a release candidate, its patch is `c + 1` if
the most-recent-release-tag query succeeds and its output contains a tag
`v<a>.<b>.<c>` with `c` in the 32-bit range, and it is 1 if that query fails or
its output contains no such tag. -/
theorem rc_patch_increment (git : Git) (v : Version) (hv : version git = some v)
    (hrc : v.versionType = RC) :
    (∀ out a b c, git recentTagQuery = .ok out → ContainsReleaseTag out a b c →
        c < 2 ^ 31 → v.patch = (c : Int) + 1) ∧
      ((∀ out a b c, git recentTagQuery = .ok out → ContainsReleaseTag out a b c →
        ¬ c < 2 ^ 31) → v.patch = 1) := by
  have hp := version_rc_patch git v hv hrc
  constructor
  · intro out a b c hq htag hc
    rw [getPrevRelease_of_tag git out a b c hq htag, if_pos hc] at hp
    rw [hp]
    exact wrapInt_succ c hc
  · intro hno
    obtain ⟨e, he⟩ := getPrevRelease_error_of_no_tag git hno
    rw [he] at hp
    exact hp

/-- Instance of C5: branch `3-1-stable` after the release `v3.1.4`. -/
theorem rc_patch_increment_witness :
    version repoStable = some stableCandidate ∧ stableCandidate.versionType = RC ∧
      repoStable recentTagQuery = .ok "v3.1.4\n" ∧ ContainsReleaseTag "v3.1.4\n" 3 1 4 ∧
      stableCandidate.patch = ((4 : Nat) : Int) + 1 :=
  ⟨rfl, rfl, rfl, rfl,
    (rc_patch_increment repoStable stableCandidate rfl rfl).1 "v3.1.4\n" 3 1 4 rfl rfl
      (by decide)⟩

/-- C6: if the hash query fails, `version` returns state `init` with every
other field at its zero value, whatever the other queries return; that version
is printed `v0.0.0` and its namespace is `/v0.0.0`. -/
theorem init_when_hash_query_fails (git : Git) (e : String) (hh : git hashQuery = .error e) :
    version git
        = some { versionType := INIT, major := 0, minor := 0, patch := 0,
                 commitSha := "", date := Time.zero } ∧
      (version git).map printVersion = some (some "v0.0.0") ∧
      ∀ zone, (version git).map (namespaceOf zone) = some "/v0.0.0" := by
  have hv : version git = some { versionType := INIT } := by
    unfold version
    simp only [hh]
  refine ⟨hv, ?_, ?_⟩
  · rw [hv]; rfl
  · intro zone; rw [hv]; rfl

/-- Instance of C6: all queries but the hash query answer. -/
theorem init_when_hash_query_fails_witness :
    repoNoHash exactTagQuery = .ok "v1.2.3\n" ∧
      version repoNoHash
        = some { versionType := INIT, major := 0, minor := 0, patch := 0,
                 commitSha := "", date := Time.zero } ∧
      (version repoNoHash).map printVersion = some (some "v0.0.0") ∧
      ∀ zone, (version repoNoHash).map (namespaceOf zone) = some "/v0.0.0" :=
  ⟨rfl, init_when_hash_query_fails repoNoHash "exit status 128" rfl⟩

/-- Feature classification: when the hash query returns `h`, the timestamp query
returns a number, the exact-tag query is unavailable or `createVersion` returns
an error on its output, and the stable-branch query is unavailable or its
output contains no `<major>-<minor>-stable` name, `version` returns state
`feature` with `commitSha = h` and major, minor and patch 0. -/
theorem feature_without_tag_and_stable_branch (git : Git) (h ts : String) (t : Int)
    (hh : git hashQuery = .ok h) (hts : git timestampQuery = .ok ts)
    (ht : parseInt 64 (trimNewlines ts.toList) = .ok t)
    (htag : ∀ tag, git exactTagQuery = .ok tag → ∃ e, createVersion tag '.' = .error e)
    (hbranch : ∀ out, git stableBranchQuery = .ok out → ¬ ContainsStableName out) :
    version git
      = some { versionType := FEATURE, major := 0, minor := 0, patch := 0,
               commitSha := h, date := Time.Unix t } := by
  obtain ⟨e, he⟩ := getReleaseBranch_error_of_no_name git hbranch
  unfold version
  cases hq : git exactTagQuery with
  | error e1 =>
    simp only [hh, hts, ht, versionFromBranch_feature git _ e he]
  | ok tag =>
    obtain ⟨e2, he2⟩ := htag tag hq
    simp only [hh, hts, ht, he2, versionFromBranch_feature git _ e he]

/-- Instance of the feature classification: a tag `vnext` at HEAD and the
branch `main`. -/
theorem feature_without_tag_and_stable_branch_witness :
    repoPlain exactTagQuery = .ok "vnext\n" ∧
      repoPlain stableBranchQuery = .ok "heads/main\n" ∧
      version repoPlain
        = some { versionType := FEATURE, major := 0, minor := 0, patch := 0,
                 commitSha := "abcdef1234567890\n", date := Time.Unix 1700000000 } :=
  ⟨rfl, rfl,
    feature_without_tag_and_stable_branch repoPlain "abcdef1234567890\n" "1700000000\n"
      1700000000 rfl rfl rfl
      (by
        intro tag htag
        have h2 : repoPlain exactTagQuery = .ok "vnext\n" := rfl
        rw [h2] at htag
        injection htag with htag
        subst htag
        exact ⟨_, rfl⟩)
      (by
        intro out hout
        have h2 : repoPlain stableBranchQuery = .ok "heads/main\n" := rfl
        rw [h2] at hout
        injection hout with hout
        subst hout
        rintro ⟨pre, M, m, post, hs, _⟩
        have hmem : 't' ∈ "heads/main\n".toList := by
          rw [hs, stableBranchText_toList]
          simp
        revert hmem
        decide)⟩

/-- C8 (counterexample): `printVersion` of a release candidate whose commit hash
has three characters does not return a string; the slice `commitSha[0:8]`
panics. -/
theorem printVersion_short_hash_panics :
    shortHashCandidate.versionType = RC ∧ shortHashCandidate.commitSha.length = 3 ∧
      printVersion shortHashCandidate = none :=
  ⟨rfl, rfl, rfl⟩

/-- C8 (amended): `namespace` returns a string for every version, and
`printVersion` returns a string exactly when the state is `release` or `init`
or the commit hash has at least 8 characters. -/
theorem formatters_defined (zone : Int → Int) (v : Version) :
    (∃ s, namespaceOf zone v = s) ∧
      ((∃ s, printVersion v = some s) ↔
        (v.versionType = RELEASE ∨ v.versionType = INIT ∨ 8 ≤ v.commitSha.length)) := by
  refine ⟨⟨_, rfl⟩, ?_⟩
  unfold printVersion sliceTo
  by_cases h1 : v.versionType = RELEASE
  · rw [if_pos h1]
    exact ⟨fun _ => Or.inl h1, fun _ => ⟨_, rfl⟩⟩
  · rw [if_neg h1]
    by_cases h2 : v.versionType = INIT
    · rw [if_pos h2]
      exact ⟨fun _ => Or.inr (Or.inl h2), fun _ => ⟨_, rfl⟩⟩
    · rw [if_neg h2]
      by_cases h8 : v.commitSha.length < 8
      · have hno : ¬ (v.versionType = RELEASE ∨ v.versionType = INIT ∨ 8 ≤ v.commitSha.length) := by
          rintro (h | h | h)
          · exact h1 h
          · exact h2 h
          · omega
        rw [if_pos h8]
        constructor
        · rintro ⟨s, hs⟩
          split at hs <;> cases hs
        · intro h; exact absurd h hno
      · have hyes : 8 ≤ v.commitSha.length := by omega
        rw [if_neg h8]
        constructor
        · intro _; exact Or.inr (Or.inr hyes)
        · intro _
          split
          · exact ⟨_, rfl⟩
          · exact ⟨_, rfl⟩

/-- C9: for a release candidate whose commit hash has at least 8 characters,
`printVersion` returns `v{major}.{minor}.{patch}-` followed by the first 8
characters of the hash and `namespace` returns `/v{major}.{minor}.{patch}:`
followed by the full hash. -/
theorem rc_formats (zone : Int → Int) (v : Version) (hrc : v.versionType = RC)
    (hlen : 8 ≤ v.commitSha.length) :
    printVersion v
        = some ("v" ++ sprintD v.major ++ "." ++ sprintD v.minor ++ "." ++ sprintD v.patch
            ++ "-" ++ String.mk (v.commitSha.toList.take 8)) ∧
      namespaceOf zone v
        = "/v" ++ sprintD v.major ++ "." ++ sprintD v.minor ++ "." ++ sprintD v.patch
            ++ ":" ++ v.commitSha := by
  have h1 : ¬ v.versionType = RELEASE := by rw [hrc]; decide
  have h2 : ¬ v.versionType = INIT := by rw [hrc]; decide
  have h8 : ¬ v.commitSha.length < 8 := by omega
  constructor
  · unfold printVersion sliceTo
    rw [if_neg h1, if_neg h2, if_pos hrc, if_neg h8]
  · unfold namespaceOf
    rw [if_neg h1, if_neg h2, if_pos hrc]

/-- Instance of C9: the end-to-end example, `v1.0.2-abcdef12` and
`/v1.0.2:abcdef1234567890`. -/
theorem rc_formats_witness :
    sampleCandidate.versionType = RC ∧ 8 ≤ sampleCandidate.commitSha.length ∧
      printVersion sampleCandidate = some "v1.0.2-abcdef12" ∧
      namespaceOf (fun _ => 0) sampleCandidate = "/v1.0.2:abcdef1234567890" :=
  ⟨rfl, by decide, rc_formats (fun _ => 0) sampleCandidate rfl (by decide)⟩

/-- C10 (defect of the code): `createVersion("4-5-stable", "-")` succeeds with
major 0, minor 5 and patch 0; the first of the two components is not assigned
to major, where the claim expects major 4. -/
theorem createVersion_two_parts_sets_minor_only :
    createVersion "4-5-stable" '-' = .ok { major := 0, minor := 5, patch := 0 } ∧
      createVersion "4-5-stable" '-' ≠ .ok { major := 4, minor := 5, patch := 0 } := by
  constructor
  · rfl
  · decide

/-! ## Inputs without a digit -/

theorem filterRe_rests_nil (sep : Char) : (filterRe sep).rests [] = [] := by
  unfold filterRe
  rw [rests_seq, numberRe_rests_nil]
  rfl

theorem filterRe_find_noDigit (sep : Char) (s : List Char) (h : ∀ c ∈ s, isDigit c = false) :
    (filterRe sep).find s = none := by
  induction s with
  | nil =>
    show (filterRe sep).matchPrefix [] = none
    exact matchPrefix_of_nil _ _ (filterRe_rests_nil sep)
  | cons c cs ih =>
    rw [find_cons_of_nil _ _ _ (filterRe_rests_nonDigit sep c cs (h c (List.mem_cons_self c cs)))]
    exact ih (fun d hd => h d (List.mem_cons_of_mem c hd))

theorem createVersion_noDigit (s : String) (sep : Char) (h : ∀ c ∈ s.toList, isDigit c = false) :
    createVersion s sep = .error "invalid syntax" := by
  have hfind : (filterRe sep).FindString s.toList = [] := by
    unfold Re.FindString
    rw [filterRe_find_noDigit sep s.toList h]
  unfold createVersion
  simp only [hfind]
  rfl

/-! ## States of the classifier -/

theorem versionFromBranch_fields (git : Git) (b : Version) :
    ((versionFromBranch git b).versionType = FEATURE ∧
        (versionFromBranch git b).major = b.major ∧
        (versionFromBranch git b).minor = b.minor ∧
        (versionFromBranch git b).patch = b.patch) ∨
      (versionFromBranch git b).versionType = RC := by
  unfold versionFromBranch
  cases getReleaseBranch git with
  | error e => exact Or.inl ⟨rfl, rfl, rfl, rfl⟩
  | ok rc =>
    right
    cases getPrevRelease git with
    | error e => rfl
    | ok p => rfl

theorem version_cases (git : Git) (v : Version) (hv : version git = some v) :
    (v.versionType = INIT ∧ v.major = 0 ∧ v.minor = 0 ∧ v.patch = 0 ∧
        ((∃ e, git hashQuery = .error e) ∨ (∃ e, git timestampQuery = .error e))) ∨
      v.versionType = RELEASE ∨ v.versionType = RC ∨
      (v.versionType = FEATURE ∧ v.major = 0 ∧ v.minor = 0 ∧ v.patch = 0) := by
  have key : ∀ base : Version, base.major = 0 → base.minor = 0 → base.patch = 0 →
      v = versionFromBranch git base →
      v.versionType = RC ∨ (v.versionType = FEATURE ∧ v.major = 0 ∧ v.minor = 0 ∧ v.patch = 0) := by
    intro base h1 h2 h3 hb
    rcases versionFromBranch_fields git base with ⟨ht, e1, e2, e3⟩ | ht
    · rw [← hb] at ht e1 e2 e3
      exact Or.inr ⟨ht, by rw [e1, h1], by rw [e2, h2], by rw [e3, h3]⟩
    · rw [← hb] at ht
      exact Or.inl ht
  unfold version at hv
  cases hh : git hashQuery with
  | error e =>
    simp only [hh, Option.some.injEq] at hv
    subst hv
    exact Or.inl ⟨rfl, rfl, rfl, rfl, Or.inl ⟨e, rfl⟩⟩
  | ok sha =>
    cases hts : git timestampQuery with
    | error e =>
      simp only [hh, hts, Option.some.injEq] at hv
      subst hv
      exact Or.inl ⟨rfl, rfl, rfl, rfl, Or.inr ⟨e, rfl⟩⟩
    | ok ts =>
      cases ht : parseInt 64 (trimNewlines ts.toList) with
      | error e => simp only [hh, hts, ht] at hv; exact absurd hv (by simp)
      | ok t =>
        cases htag : git exactTagQuery with
        | error e =>
          simp only [hh, hts, ht, htag, Option.some.injEq] at hv
          exact Or.inr (Or.inr (key _ rfl rfl rfl hv.symm))
        | ok tag =>
          cases hcv : createVersion tag '.' with
          | error e =>
            simp only [hh, hts, ht, htag, hcv, Option.some.injEq] at hv
            exact Or.inr (Or.inr (key _ rfl rfl rfl hv.symm))
          | ok r =>
            simp only [hh, hts, ht, htag, hcv, Option.some.injEq] at hv
            subst hv
            exact Or.inr (Or.inl rfl)

/-! ## Properties of the program, continued -/

/-- C11: for every natural number `n` in the signed 32-bit range, `createVersion`
applied to the canonical decimal text of `n` alone succeeds with major `n`,
minor 0 and patch 0, for every separator that is not a digit. -/
theorem createVersion_single_component (n : Nat) (hn : n < 2 ^ 31) (sep : Char)
    (hsep : isDigit sep = false) :
    createVersion (decimal n) sep = .ok { major := n, minor := 0, patch := 0 } := by
  have h := createVersion_one sep hsep [] (formatNat n) [] (by intro c hc; simp at hc)
    (formatNat_canonical n) (by intro c hc; simp at hc) (by intro c cs hc; simp at hc)
  rw [parseNumber_formatNat n hn] at h
  have e : decimal n = String.mk ([] ++ (formatNat n ++ [])) := by
    simp [decimal]
  rw [e]
  exact h

/-- Instance of C11: the text `7` alone. -/
theorem createVersion_single_component_witness :
    decimal 7 = "7" ∧ createVersion "7" '.' = .ok { major := 7, minor := 0, patch := 0 } :=
  ⟨rfl, createVersion_single_component 7 (by decide) '.' (by decide)⟩

/-- C12 (defect of the code): `createVersion("v01.2.3", ".")` returns no error
but major 0, minor 0 and patch 0, so a HEAD tagged `v01.2.3` is classified as a
release; the pattern of `getPrevRelease` finds no tag in the same text. -/
theorem createVersion_accepts_leading_zero :
    createVersion "v01.2.3" '.' = .ok { major := 0, minor := 0, patch := 0 } ∧
      version repoLeadingZeroTag
        = some { versionType := RELEASE, major := 0, minor := 0, patch := 0,
                 commitSha := "abcdef1234567890\n", date := Time.Unix 1700000000 } ∧
      releaseTagRegexp.FindString "v01.2.3".toList = [] :=
  ⟨rfl, rfl, rfl⟩

/-- C13 (defect of the code): `createVersion("99999999999.1.2", ".")` and
`createVersion("1.99999999999.2", ".")` return no error but patch 2; only an
overflow of the last component, as in `1.2.99999999999`, is reported. -/
theorem createVersion_ignores_overflow_before_last :
    createVersion "99999999999.1.2" '.' = .ok { major := 0, minor := 0, patch := 2 } ∧
      createVersion "1.99999999999.2" '.' = .ok { major := 0, minor := 0, patch := 2 } ∧
      createVersion "1.2.99999999999" '.' = .error "value out of range" :=
  ⟨rfl, rfl, rfl⟩

/-- C14: when the hash query succeeds, so that the timestamp query is issued,
and the timestamp query succeeds with an output that, stripped of leading and
trailing newlines, is not a base-10 64-bit signed integer, `version` returns
no value: it panics. -/
theorem version_panics_on_malformed_timestamp (git : Git) (h ts e : String)
    (hh : git hashQuery = .ok h) (hts : git timestampQuery = .ok ts)
    (ht : parseInt 64 (trimNewlines ts.toList) = .error e) :
    version git = none := by
  unfold version
  simp only [hh, hts, ht]

/-- Instance of C14: the timestamp query answers `yesterday`. -/
theorem version_panics_on_malformed_timestamp_witness :
    repoBadTimestamp timestampQuery = .ok "yesterday\n" ∧ version repoBadTimestamp = none :=
  ⟨rfl, version_panics_on_malformed_timestamp repoBadTimestamp "abcdef1234567890\n"
    "yesterday\n" "invalid syntax" rfl rfl rfl⟩

/-- C15 (counterexample): the hash query succeeds, the timestamp query fails,
and `version` returns state `init`. -/
theorem init_when_timestamp_query_fails :
    repoNoTimestamp hashQuery = .ok "abcdef1234567890\n" ∧
      version repoNoTimestamp
        = some { versionType := INIT, major := 0, minor := 0, patch := 0,
                 commitSha := "abcdef1234567890\n", date := Time.zero } :=
  ⟨rfl, rfl⟩

/-- C15 (amended): the hash query and the timestamp query are the only
queries whose failure yields `init`. When the hash query succeeds, a failing
timestamp query yields state `init` with the hash recorded, and whenever the
timestamp query also succeeds and `version` returns a value the state is not
`init`. -/
theorem init_only_without_hash_or_timestamp (git : Git) (h : String)
    (hh : git hashQuery = .ok h) :
    (∀ e, git timestampQuery = .error e →
        version git = some { versionType := INIT, major := 0, minor := 0, patch := 0,
                             commitSha := h, date := Time.zero }) ∧
      (∀ ts v, git timestampQuery = .ok ts → version git = some v → v.versionType ≠ INIT) := by
  constructor
  · intro e hts
    unfold version
    simp only [hh, hts]
  · intro ts v hts hv hinit
    rcases version_cases git v hv with ⟨_, _, _, _, hq⟩ | hr | hr | ⟨hr, _⟩
    · rcases hq with ⟨e, he⟩ | ⟨e, he⟩
      · rw [hh] at he; cases he
      · rw [hts] at he; cases he
    · rw [hinit] at hr; exact absurd hr (by decide)
    · rw [hinit] at hr; exact absurd hr (by decide)
    · rw [hinit] at hr; exact absurd hr (by decide)

/-- Instance of C15 (amended): a stable branch with hash and timestamp. -/
theorem init_only_without_hash_or_timestamp_witness :
    repoStable hashQuery = .ok "abcdef1234567890\n" ∧
      repoStable timestampQuery = .ok "1700000000\n" ∧
      version repoStable = some stableCandidate ∧ stableCandidate.versionType ≠ INIT :=
  ⟨rfl, rfl, rfl,
    (init_only_without_hash_or_timestamp repoStable "abcdef1234567890\n" rfl).2
      "1700000000\n" stableCandidate rfl rfl⟩

/-- C17 (defect of the code): for the branch name `03-1-stable`
`getReleaseBranch` returns no error and `version` classifies as release
candidate, because the pattern finds `3-1-stable` inside the name; the name
`3-01-stable` is rejected and classified as feature. -/
theorem stable_branch_leading_zero_major_accepted :
    getReleaseBranch repoLeadingZeroMajor = .ok { major := 0, minor := 1, patch := 0 } ∧
      version repoLeadingZeroMajor
        = some { versionType := RC, major := 0, minor := 1, patch := 1,
                 commitSha := "abcdef1234567890\n", date := Time.Unix 1700000000 } ∧
      getReleaseBranch repoLeadingZeroMinor = .error "invalid rc branch name" ∧
      version repoLeadingZeroMinor
        = some { versionType := FEATURE, major := 0, minor := 0, patch := 0,
                 commitSha := "abcdef1234567890\n", date := Time.Unix 1700000000 } :=
  ⟨rfl, rfl, rfl, rfl⟩

/-- C18: for every input without a decimal digit, the empty string included,
and delimiter `.` or `-`, `createVersion` returns an error. -/
theorem createVersion_fails_without_digit (s : String) (sep : Char)
    (_hsep : sep = '.' ∨ sep = '-') (h : ∀ c ∈ s.toList, isDigit c = false) :
    ∃ e, createVersion s sep = .error e :=
  ⟨"invalid syntax", createVersion_noDigit s sep h⟩

/-- Instance of C18: the empty string and the text `v-stable`. -/
theorem createVersion_fails_without_digit_witness :
    (∃ e, createVersion "" '.' = .error e) ∧ ∃ e, createVersion "v-stable" '-' = .error e :=
  ⟨createVersion_fails_without_digit "" '.' (Or.inl rfl) (by decide),
    createVersion_fails_without_digit "v-stable" '-' (Or.inr rfl) (by decide)⟩

/-- C19: every value that `version` returns has exactly one of the four
states `init`, `release`, `rc`, `feature` (four distinct values), and in the
states `init` and `feature` its major, minor and patch are 0. -/
theorem version_state_invariant (git : Git) (v : Version) (hv : version git = some v) :
    [INIT, RELEASE, RC, FEATURE].Nodup ∧
      (v.versionType = INIT ∨ v.versionType = RELEASE ∨ v.versionType = RC ∨
        v.versionType = FEATURE) ∧
      (v.versionType = INIT ∨ v.versionType = FEATURE →
        v.major = 0 ∧ v.minor = 0 ∧ v.patch = 0) := by
  refine ⟨by decide, ?_, ?_⟩
  · rcases version_cases git v hv with ⟨h, _⟩ | h | h | ⟨h, _⟩
    · exact Or.inl h
    · exact Or.inr (Or.inl h)
    · exact Or.inr (Or.inr (Or.inl h))
    · exact Or.inr (Or.inr (Or.inr h))
  · intro hs
    rcases version_cases git v hv with ⟨_, h1, h2, h3, _⟩ | h | h | ⟨_, h1, h2, h3⟩
    · exact ⟨h1, h2, h3⟩
    · rcases hs with hs | hs <;> rw [hs] at h <;> exact absurd h (by decide)
    · rcases hs with hs | hs <;> rw [hs] at h <;> exact absurd h (by decide)
    · exact ⟨h1, h2, h3⟩

/-- Instance of C19: the feature version of a repository on `main`. -/
theorem version_state_invariant_witness :
    ∃ v, version repoPlain = some v ∧ v.versionType = FEATURE ∧
      v.major = 0 ∧ v.minor = 0 ∧ v.patch = 0 :=
  ⟨{ versionType := FEATURE, commitSha := "abcdef1234567890\n", date := Time.Unix 1700000000 },
    rfl, rfl,
    (version_state_invariant repoPlain _ rfl).2.2 (Or.inr rfl)⟩

/-- C20: for every version in state `release` or `init`, `printVersion` returns
a string and `namespace` is `/` followed by that string. -/
theorem namespace_is_slash_printVersion (zone : Int → Int) (v : Version)
    (hs : v.versionType = RELEASE ∨ v.versionType = INIT) :
    ∃ s, printVersion v = some s ∧ namespaceOf zone v = "/" ++ s := by
  unfold printVersion namespaceOf
  by_cases h1 : v.versionType = RELEASE
  · rw [if_pos h1, if_pos h1]
    refine ⟨_, rfl, ?_⟩
    simp only [String.append_assoc]
    rfl
  · have h2 : v.versionType = INIT := by
      rcases hs with hs | hs
      · exact absurd hs h1
      · exact hs
    rw [if_neg h1, if_neg h1, if_pos h2, if_pos h2]
    exact ⟨_, rfl, rfl⟩

/-- Instance of C20: the release `v1.2.3`. -/
theorem namespace_is_slash_printVersion_witness :
    printVersion sampleRelease = some "v1.2.3" ∧
      ∃ s, printVersion sampleRelease = some s ∧ namespaceOf (fun _ => 0) sampleRelease = "/" ++ s :=
  ⟨rfl, namespace_is_slash_printVersion (fun _ => 0) sampleRelease (Or.inl rfl)⟩

/-! ## Year and month texts -/

theorem formatNat_length_le (k : Nat) : ∀ n, n < 10 ^ (k + 1) → (formatNat n).length ≤ k + 1 := by
  induction k with
  | zero =>
    intro n hn
    rw [formatNat_small n (by simpa using hn)]
    exact Nat.le_refl 1
  | succ k ih =>
    intro n hn
    by_cases h : n < 10
    · rw [formatNat_small n h]
      show 1 ≤ k + 1 + 1
      omega
    · have hdiv : n / 10 < 10 ^ (k + 1) := by
        rw [pow_succ] at hn
        exact Nat.div_lt_of_lt_mul (by rw [Nat.mul_comm]; exact hn)
      have := ih (n / 10) hdiv
      rw [formatNat_step n (by omega), List.length_append]
      show (formatNat (n / 10)).length + 1 ≤ k + 1 + 1
      omega

theorem digitsValue_zeros (k : Nat) (ds : List Char) :
    digitsValue 0 (List.replicate k '0' ++ ds) = digitsValue 0 ds := by
  induction k with
  | zero => rfl
  | succ k ih =>
    show digitsValue (10 * 0 + digitValue '0') (List.replicate k '0' ++ ds) = digitsValue 0 ds
    have h0 : 10 * 0 + digitValue '0' = 0 := by decide
    rw [h0]
    exact ih

theorem appendInt_nonneg (x : Int) (width : Nat) (hx : 0 ≤ x) :
    appendInt x width
      = List.replicate (width - (formatNat x.natAbs).length) '0' ++ formatNat x.natAbs := by
  unfold appendInt
  have h : ¬ x < 0 := by omega
  simp only [h, if_false]

theorem appendInt_length_ge (x : Int) (width : Nat) : width ≤ (appendInt x width).length := by
  unfold appendInt
  by_cases h : x < 0
  · simp only [h, if_true, List.length_cons, List.length_append, List.length_replicate]
    omega
  · simp only [h, if_false, List.length_append, List.length_replicate]
    omega

theorem appendInt_text (x : Int) (k : Nat) (hx : 0 ≤ x) (hk : x < 10 ^ (k + 1)) :
    (appendInt x (k + 1)).length = k + 1 ∧ (appendInt x (k + 1)).all isDigit = true ∧
      ((digitsValue 0 (appendInt x (k + 1)) : Nat) : Int) = x := by
  have hlen : (formatNat x.natAbs).length ≤ k + 1 := by
    apply formatNat_length_le
    have : ((x.natAbs : Nat) : Int) < ((10 ^ (k + 1) : Nat) : Int) := by
      rw [Int.natAbs_of_nonneg hx]; push_cast; exact hk
    exact_mod_cast this
  rw [appendInt_nonneg x (k + 1) hx]
  refine ⟨?_, ?_, ?_⟩
  · rw [List.length_append, List.length_replicate]
    omega
  · rw [List.all_append, formatNat_all_isDigit, Bool.and_true]
    rw [List.all_eq_true]
    intro c hc
    rw [List.eq_of_mem_replicate hc]
    decide
  · rw [digitsValue_zeros, digitsValue_formatNat]
    exact Int.natAbs_of_nonneg hx

theorem civilYearMonth_month (d : Int) :
    1 ≤ (civilYearMonth d).2 ∧ (civilYearMonth d).2 ≤ 12 := by
  simp only [civilYearMonth]
  split_ifs <;> omega

theorem string_mk_append_sep (a b : List Char) (c : Char) :
    String.mk (a ++ c :: b) = String.mk a ++ String.mk [c] ++ String.mk b := by
  apply String.ext
  simp

/-! ## The calendar of `Time.formatYearMonth` -/

theorem yearOfEra_spec (doe : Int) (h0 : 0 ≤ doe) (h1 : doe ≤ 146096) :
    ∃ t a b : Int, t = (doe - doe / 1460 + doe / 36524 - doe / 146096) / 365 ∧
      a = t / 4 ∧ b = t / 100 ∧ 0 ≤ t ∧ t ≤ 399 ∧
      365 * t + a - b ≤ doe ∧ doe ≤ 365 * t + a - b + 365 ∧
      (doe = 365 * t + a - b + 365 → t % 4 = 3 ∧ (t % 100 ≠ 99 ∨ t = 399)) := by
  by_cases hlast : doe = 146096
  · subst hlast
    exact ⟨399, 99, 3, by norm_num, by norm_num, by norm_num, by norm_num, by norm_num,
      by norm_num, by norm_num, fun _ => ⟨by norm_num, Or.inr rfl⟩⟩
  · obtain ⟨c, hc⟩ : ∃ c, c = doe / 36524 := ⟨_, rfl⟩
    obtain ⟨q, hq⟩ : ∃ q, q = doe / 1460 := ⟨_, rfl⟩
    obtain ⟨e, he⟩ : ∃ e, e = doe / 146096 := ⟨_, rfl⟩
    obtain ⟨p, hp⟩ : ∃ p, p = (doe - 36524 * c) / 1461 := ⟨_, rfl⟩
    obtain ⟨s, hs⟩ : ∃ s, s = (doe - 36524 * c) % 1461 := ⟨_, rfl⟩
    rw [← hc, ← hq, ← he]
    obtain ⟨t, ht⟩ : ∃ t, t = (doe - q + c - e) / 365 := ⟨_, rfl⟩
    have he0 : e = 0 := by omega
    have hc0 : 0 ≤ c := by omega
    have hc4 : c ≤ 3 := by omega
    have hdoe : doe = 36524 * c + 1461 * p + s := by omega
    have hs0 : 0 ≤ s := by omega
    have hs1 : s ≤ 1460 := by omega
    have hp0 : 0 ≤ p := by omega
    have hp1 : p ≤ 24 := by omega
    have hqd : q = 25 * c + p ∨ q = 25 * c + p + 1 := by omega
    have hN : doe - q + c - e = 365 * (100 * c + 4 * p) + (s - (q - 25 * c - p)) := by omega
    have hk : t = 100 * c + 4 * p ∨ t = 100 * c + 4 * p + 1 ∨ t = 100 * c + 4 * p + 2 ∨
        t = 100 * c + 4 * p + 3 := by
      rcases hqd with h | h <;> omega
    have ha : t / 4 = 25 * c + p := by
      rcases hk with h | h | h | h <;> omega
    have hb : t / 100 = c := by
      rcases hk with h | h | h | h <;> omega
    refine ⟨t, t / 4, t / 100, ht, rfl, rfl, by omega, by omega, ?_, ?_, ?_⟩
    · rw [ha, hb]
      rcases hk with h | h | h | h <;> rcases hqd with h' | h' <;> omega
    · rw [ha, hb]
      rcases hk with h | h | h | h <;> rcases hqd with h' | h' <;> omega
    · rw [ha, hb]
      intro hd
      rcases hk with h | h | h | h <;> rcases hqd with h' | h' <;> omega

theorem leapDay_eq (y : Int) :
    (if isLeapYear y = true then (1 : Int) else 0)
      = (y / 4 - y / 100 + y / 400) - ((y - 1) / 4 - (y - 1) / 100 + (y - 1) / 400) := by
  unfold isLeapYear
  simp only [Bool.and_eq_true, Bool.or_eq_true, decide_eq_true_eq]
  split_ifs with h <;> omega

theorem isLeapYear_of_last_day (t era : Int) (h4 : t % 4 = 3) (h100 : t % 100 ≠ 99 ∨ t = 399) :
    isLeapYear (t + era * 400 + 1) = true := by
  unfold isLeapYear
  simp only [Bool.and_eq_true, Bool.or_eq_true, decide_eq_true_eq]
  omega

theorem firstDayOfMonth_from_march (t era a b m k : Int) (ht0 : 0 ≤ t) (ht1 : t ≤ 399)
    (ha : a = t / 4) (hb : b = t / 100)
    (hk : daysBeforeMonth (isLeapYear (t + era * 400)) m
      = (if isLeapYear (t + era * 400) = true then 1 else 0) + 59 + k) :
    firstDayOfMonth (t + era * 400) m = 146097 * era + (365 * t + a - b) + k - 719468 := by
  unfold firstDayOfMonth daysBeforeYear
  rw [hk, leapDay_eq]
  omega

theorem firstDayOfMonth_jan_feb (t era a b m k : Int) (ht0 : 0 ≤ t) (ht1 : t ≤ 399)
    (ha : a = t / 4) (hb : b = t / 100)
    (hk : daysBeforeMonth (isLeapYear (t + era * 400 + 1)) m = k) :
    firstDayOfMonth (t + era * 400 + 1) m = 146097 * era + (365 * t + a - b) + 306 + k - 719468 := by
  unfold firstDayOfMonth daysBeforeYear
  rw [hk]
  omega

theorem daysBeforeMonth_march (leap : Bool) (mp : Int) (h0 : 0 ≤ mp) (h1 : mp ≤ 10) :
    daysBeforeMonth leap (mp + 3) = (if leap = true then 1 else 0) + 59 + (153 * mp + 2) / 5 := by
  unfold daysBeforeMonth
  interval_cases mp <;> norm_num <;> omega

theorem civilYearMonth_parts (d era doe t a b doy mp : Int)
    (hera : era = (d + 719468) / 146097) (hdoe : doe = (d + 719468) % 146097)
    (ht : t = (doe - doe / 1460 + doe / 36524 - doe / 146096) / 365)
    (ha : a = t / 4) (hb : b = t / 100) (hdoy : doy = doe - (365 * t + a - b))
    (hmp : mp = (5 * doy + 2) / 153) :
    civilYearMonth d
      = (if (if mp < 10 then mp + 3 else mp - 9) ≤ 2 then t + era * 400 + 1 else t + era * 400,
         if mp < 10 then mp + 3 else mp - 9) := by
  subst hmp hdoy ha hb ht hdoe hera
  rfl

theorem civilYearMonth_spec (d : Int) :
    1 ≤ (civilYearMonth d).2 ∧ (civilYearMonth d).2 ≤ 12 ∧
      firstDayOfMonth (civilYearMonth d).1 (civilYearMonth d).2 ≤ d ∧
      d < firstDayOfMonth (civilYearMonth d).1 ((civilYearMonth d).2 + 1) := by
  obtain ⟨era, hera⟩ : ∃ era, era = (d + 719468) / 146097 := ⟨_, rfl⟩
  obtain ⟨doe, hdoe⟩ : ∃ doe, doe = (d + 719468) % 146097 := ⟨_, rfl⟩
  have h0 : 0 ≤ doe := by omega
  have h1 : doe ≤ 146096 := by omega
  have hd : d = 146097 * era + doe - 719468 := by omega
  obtain ⟨t, a, b, ht, ha, hb, ht0, ht1, hlo, hhi, hleap⟩ := yearOfEra_spec doe h0 h1
  obtain ⟨doy, hdoy⟩ : ∃ doy, doy = doe - (365 * t + a - b) := ⟨_, rfl⟩
  obtain ⟨mp, hmp⟩ : ∃ mp, mp = (5 * doy + 2) / 153 := ⟨_, rfl⟩
  rw [civilYearMonth_parts d era doe t a b doy mp hera hdoe ht ha hb hdoy hmp]
  have hmp0 : 0 ≤ mp := by omega
  have hmp1 : mp ≤ 11 := by omega
  by_cases hA : mp < 10
  · have hm : ¬ mp + 3 ≤ 2 := by omega
    simp only [hA, if_true, hm, if_false]
    have e1 := firstDayOfMonth_from_march t era a b (mp + 3) ((153 * mp + 2) / 5) ht0 ht1 ha hb
      (daysBeforeMonth_march _ mp hmp0 (by omega))
    have e2 := firstDayOfMonth_from_march t era a b (mp + 1 + 3) ((153 * (mp + 1) + 2) / 5)
      ht0 ht1 ha hb (daysBeforeMonth_march _ (mp + 1) (by omega) (by omega))
    have e3 : mp + 3 + 1 = mp + 1 + 3 := by omega
    rw [e3, e1, e2]
    omega
  · have hm : mp - 9 ≤ 2 := by omega
    simp only [hA, if_false, hm, if_true]
    have hcases : mp = 10 ∨ mp = 11 := by omega
    rcases hcases with h | h
    · subst h
      have e1 := firstDayOfMonth_jan_feb t era a b 1 0 ht0 ht1 ha hb (by simp [daysBeforeMonth])
      have e2 := firstDayOfMonth_jan_feb t era a b 2 31 ht0 ht1 ha hb (by simp [daysBeforeMonth])
      norm_num
      rw [e1, e2]
      omega
    · subst h
      have e1 := firstDayOfMonth_jan_feb t era a b 2 31 ht0 ht1 ha hb (by simp [daysBeforeMonth])
      have e2 := firstDayOfMonth_jan_feb t era a b 3
        ((if isLeapYear (t + era * 400 + 1) = true then 1 else 0) + 59) ht0 ht1 ha hb
        (by simp [daysBeforeMonth])
      norm_num
      rw [e1, e2]
      by_cases hlast : doe = 365 * t + a - b + 365
      · obtain ⟨h4, h100⟩ := hleap hlast
        rw [isLeapYear_of_last_day t era h4 h100]
        norm_num
        omega
      · split_ifs <;> omega

theorem daysBeforeYear_succ (y : Int) :
    daysBeforeYear (y + 1) = daysBeforeYear y + 365 + (if isLeapYear y = true then 1 else 0) := by
  rw [leapDay_eq]
  unfold daysBeforeYear
  have e : y + 1 - 1 = y := by omega
  rw [e]
  omega

theorem daysBeforeYear_mono (y z : Int) (h : y ≤ z) : daysBeforeYear y ≤ daysBeforeYear z := by
  unfold daysBeforeYear
  omega

theorem daysBeforeMonth_value (leap : Bool) (k : Int) (hk1 : 1 ≤ k) (hk13 : k ≤ 13) :
    (k = 1 ∧ daysBeforeMonth leap k = 0) ∨ (k = 2 ∧ daysBeforeMonth leap k = 31) ∨
      (3 ≤ k ∧ daysBeforeMonth leap k
        = (if leap = true then 1 else 0) + 59 + (153 * (k - 3) + 2) / 5) := by
  by_cases h3 : 3 ≤ k
  · have h := daysBeforeMonth_march leap (k - 3) (by omega) (by omega)
    have e : k - 3 + 3 = k := by omega
    rw [e] at h
    exact Or.inr (Or.inr ⟨h3, h⟩)
  · have hk : k = 1 ∨ k = 2 := by omega
    rcases hk with h | h
    · subst h; exact Or.inl ⟨rfl, by simp [daysBeforeMonth]⟩
    · subst h; exact Or.inr (Or.inl ⟨rfl, by simp [daysBeforeMonth]⟩)

theorem daysBeforeMonth_mono (leap : Bool) (m n : Int) (hm : 1 ≤ m) (hmn : m ≤ n) (hn : n ≤ 13) :
    daysBeforeMonth leap m ≤ daysBeforeMonth leap n := by
  obtain ⟨x, hx⟩ : ∃ x : Int, x = if leap = true then 1 else 0 := ⟨_, rfl⟩
  have hx0 : 0 ≤ x := by rw [hx]; split_ifs <;> omega
  have hv1 := daysBeforeMonth_value leap m hm (by omega)
  have hv2 := daysBeforeMonth_value leap n (by omega) hn
  rw [← hx] at hv1 hv2
  rcases hv1 with ⟨h1, e1⟩ | ⟨h1, e1⟩ | ⟨h1, e1⟩ <;>
    rcases hv2 with ⟨h2, e2⟩ | ⟨h2, e2⟩ | ⟨h2, e2⟩ <;> rw [e1, e2] <;> omega

theorem firstDayOfMonth_next_year (y : Int) : firstDayOfMonth y 13 = firstDayOfMonth (y + 1) 1 := by
  unfold firstDayOfMonth
  rw [daysBeforeYear_succ]
  have e1 : daysBeforeMonth (isLeapYear (y + 1)) 1 = 0 := by simp [daysBeforeMonth]
  have e2 : daysBeforeMonth (isLeapYear y) 13
      = (if isLeapYear y = true then 1 else 0) + 365 := by simp [daysBeforeMonth]
  rw [e1, e2]
  omega

theorem firstDayOfMonth_lt_of_year_lt (y z m n : Int) (hyz : y < z) (hm : 1 ≤ m) (hm12 : m ≤ 12)
    (hn : 1 ≤ n) (hn12 : n ≤ 12) : firstDayOfMonth y (m + 1) ≤ firstDayOfMonth z n := by
  have h1 : firstDayOfMonth y (m + 1) ≤ firstDayOfMonth y 13 := by
    unfold firstDayOfMonth
    have := daysBeforeMonth_mono (isLeapYear y) (m + 1) 13 (by omega) (by omega) (by omega)
    omega
  have h2 : firstDayOfMonth (y + 1) 1 ≤ firstDayOfMonth z 1 := by
    unfold firstDayOfMonth
    have := daysBeforeYear_mono (y + 1) z (by omega)
    have e1 : daysBeforeMonth (isLeapYear (y + 1)) 1 = 0 := by simp [daysBeforeMonth]
    have e2 : daysBeforeMonth (isLeapYear z) 1 = 0 := by simp [daysBeforeMonth]
    omega
  have h3 : firstDayOfMonth z 1 ≤ firstDayOfMonth z n := by
    unfold firstDayOfMonth
    have := daysBeforeMonth_mono (isLeapYear z) 1 n (by omega) hn (by omega)
    omega
  rw [firstDayOfMonth_next_year] at h1
  omega

/-- The month that contains a day is unique. -/
theorem month_of_day_unique (d y m z n : Int) (hm : 1 ≤ m) (hm12 : m ≤ 12) (hn : 1 ≤ n)
    (hn12 : n ≤ 12) (h1 : firstDayOfMonth y m ≤ d) (h2 : d < firstDayOfMonth y (m + 1))
    (h3 : firstDayOfMonth z n ≤ d) (h4 : d < firstDayOfMonth z (n + 1)) : y = z ∧ m = n := by
  have hy : y = z := by
    by_contra hne
    rcases lt_or_gt_of_ne hne with h | h
    · have := firstDayOfMonth_lt_of_year_lt y z m n h hm hm12 hn hn12
      omega
    · have := firstDayOfMonth_lt_of_year_lt z y n m h hn hn12 hm hm12
      omega
  subst hy
  refine ⟨rfl, ?_⟩
  by_contra hne
  rcases lt_or_gt_of_ne hne with h | h
  · have := daysBeforeMonth_mono (isLeapYear y) (m + 1) n (by omega) (by omega) (by omega)
    unfold firstDayOfMonth at h2 h3
    omega
  · have := daysBeforeMonth_mono (isLeapYear y) (n + 1) m (by omega) (by omega) (by omega)
    unfold firstDayOfMonth at h1 h4
    omega

/-! ## Properties of the program: feature versions and unparseable tags -/

/-- C16 (counterexample): for a feature version committed in the year 10000, an
instant that Go represents without wrap-around, `namespace` returns
`/dev-10000-01:` followed by the hash; the year has five digits. -/
theorem namespace_year_beyond_four_digits :
    farFutureFeature.versionType = FEATURE ∧
      farFutureFeature.date.Representable (fun _ => 0) ∧
      firstDayOfMonth 10000 1 ≤ farFutureFeature.date.localDay (fun _ => 0) ∧
      farFutureFeature.date.localDay (fun _ => 0) < firstDayOfMonth 10000 2 ∧
      namespaceOf (fun _ => 0) farFutureFeature = "/dev-10000-01:abcdef1234567890" :=
  ⟨rfl, ⟨by decide, by decide⟩, by decide, by decide, rfl⟩

/-- C16 (amended): for every feature version with hash `h` whose commit time `t`
Go represents without wrap-around, there are a year `y` and a month `m`, the
only ones whose month contains the local day of `t`, such that `namespace`
returns `/dev-`, the year `y` padded with zeros to at least four digits
(exactly four digits for the years 0 to 9999), `-`, the two digits of `m`, `:`
and the full hash `h`; and when `h` has at least 8 characters `printVersion`
returns `dev-` followed by the first 8 characters of `h`. -/
theorem feature_formats (zone : Int → Int) (v : Version) (hf : v.versionType = FEATURE)
    (_hrange : v.date.Representable zone) :
    ∃ y m : Int,
      (1 ≤ m ∧ m ≤ 12 ∧ firstDayOfMonth y m ≤ v.date.localDay zone ∧
        v.date.localDay zone < firstDayOfMonth y (m + 1)) ∧
      (∀ z n : Int, 1 ≤ n → n ≤ 12 → firstDayOfMonth z n ≤ v.date.localDay zone →
        v.date.localDay zone < firstDayOfMonth z (n + 1) → z = y ∧ n = m) ∧
      namespaceOf zone v
        = "/dev-" ++ String.mk (appendInt y 4) ++ "-" ++ String.mk (appendInt m 2)
            ++ ":" ++ v.commitSha ∧
      4 ≤ (appendInt y 4).length ∧
      (0 ≤ y → y ≤ 9999 →
        (appendInt y 4).length = 4 ∧ (appendInt y 4).all isDigit = true ∧
        ((digitsValue 0 (appendInt y 4) : Nat) : Int) = y) ∧
      ((appendInt m 2).length = 2 ∧ (appendInt m 2).all isDigit = true ∧
        ((digitsValue 0 (appendInt m 2) : Nat) : Int) = m) ∧
      (8 ≤ v.commitSha.length →
        printVersion v = some ("dev-" ++ String.mk (v.commitSha.toList.take 8))) := by
  have h1 : ¬ v.versionType = RELEASE := by rw [hf]; decide
  have h2 : ¬ v.versionType = INIT := by rw [hf]; decide
  have h3 : ¬ v.versionType = RC := by rw [hf]; decide
  obtain ⟨hm1, hm12, hlo, hhi⟩ := civilYearMonth_spec (v.date.localDay zone)
  refine ⟨(civilYearMonth (v.date.localDay zone)).1, (civilYearMonth (v.date.localDay zone)).2,
    ⟨hm1, hm12, hlo, hhi⟩, ?_, ?_, appendInt_length_ge _ 4, ?_, ?_, ?_⟩
  · intro z n hn1 hn12 hz1 hz2
    exact month_of_day_unique _ z n _ _ hn1 hn12 hm1 hm12 hz1 hz2 hlo hhi
  · unfold namespaceOf
    rw [if_neg h1, if_neg h2, if_neg h3]
    unfold Time.formatYearMonth Time.localDay Time.localSec
    simp only []
    rw [string_mk_append_sep]
    simp only [String.append_assoc]
  · intro hy0 hy1
    exact appendInt_text _ 3 hy0 (by norm_num; omega)
  · exact appendInt_text _ 1 (by omega) (by norm_num; omega)
  · intro hlen
    have h8 : ¬ v.commitSha.length < 8 := by omega
    unfold printVersion sliceTo
    rw [if_neg h1, if_neg h2, if_neg h3, if_neg h8]

/-- Instance of C16 (amended): a feature version committed in November 2023. -/
theorem feature_formats_witness :
    sampleFeature.versionType = FEATURE ∧ sampleFeature.date.Representable (fun _ => 0) ∧
      namespaceOf (fun _ => 0) sampleFeature = "/dev-2023-11:abcdef1234567890" ∧
      printVersion sampleFeature = some "dev-abcdef12" ∧
      ∃ y m : Int,
        (1 ≤ m ∧ m ≤ 12 ∧ firstDayOfMonth y m ≤ sampleFeature.date.localDay (fun _ => 0) ∧
          sampleFeature.date.localDay (fun _ => 0) < firstDayOfMonth y (m + 1)) ∧
        namespaceOf (fun _ => 0) sampleFeature
          = "/dev-" ++ String.mk (appendInt y 4) ++ "-" ++ String.mk (appendInt m 2)
              ++ ":" ++ sampleFeature.commitSha := by
  obtain ⟨y, m, hcal, _, hns, _⟩ :=
    feature_formats (fun _ => 0) sampleFeature rfl ⟨by decide, by decide⟩
  exact ⟨rfl, ⟨by decide, by decide⟩, rfl, rfl, y, m, hcal, hns⟩

theorem canonical_of_leading_zero (m rest tl : List Char) (hm : Canonical m)
    (h : m ++ rest = '0' :: tl) : m = ['0'] ∧ rest = tl := by
  rcases hm with h0 | ⟨d, ds, hm, hd, _⟩
  · subst h0
    simp only [List.singleton_append, List.cons.injEq, true_and] at h
    exact ⟨rfl, h⟩
  · subst hm
    simp only [List.cons_append, List.cons.injEq] at h
    rw [h.1] at hd
    exact absurd hd (by decide)

theorem not_parsesAsVersionTag_leading_zero : ¬ ParsesAsVersionTag "v01.2.3\n" := by
  unfold ParsesAsVersionTag
  have ht : trimNewlines "v01.2.3\n".toList = 'v' :: '0' :: "1.2.3".toList := by decide
  rw [ht]
  rintro (⟨a, h⟩ | ⟨a, b, h⟩ | ⟨a, b, c, h⟩)
  · simp only [List.cons.injEq, true_and] at h
    have h' : formatNat a ++ [] = '0' :: "1.2.3".toList := by rw [List.append_nil]; exact h.symm
    have := (canonical_of_leading_zero _ _ _ (formatNat_canonical a) h').2
    exact absurd this (by decide)
  · simp only [List.cons.injEq, true_and] at h
    have := (canonical_of_leading_zero _ _ _ (formatNat_canonical a) h.symm).2
    have h1 : some '.' = ("1.2.3".toList).head? := by rw [← this]; rfl
    exact absurd h1 (by decide)
  · simp only [List.cons.injEq, true_and] at h
    have := (canonical_of_leading_zero _ _ _ (formatNat_canonical a) h.symm).2
    have h1 : some '.' = ("1.2.3".toList).head? := by rw [← this]; rfl
    exact absurd h1 (by decide)

theorem not_containsStableName_main : ¬ ContainsStableName "heads/main\n" := by
  rintro ⟨pre, M, m, post, hs, _⟩
  have hmem : 't' ∈ "heads/main\n".toList := by
    rw [hs, stableBranchText_toList]
    simp
  revert hmem
  decide

/-- C7 (defect of the code): with a successful hash query and a numeric
timestamp, an exact-tag output `v01.2.3` that does not parse as
`v<major>[.<minor>[.<patch>]]` and a stable-branch output without any
`<major>-<minor>-stable` name, `version` returns state `release` with 0.0.0
where the claim expects state `feature`. -/
theorem version_unparseable_tag_is_release :
    repoLeadingZeroTagOnMain hashQuery = .ok "abcdef1234567890\n" ∧
      repoLeadingZeroTagOnMain timestampQuery = .ok "1700000000\n" ∧
      repoLeadingZeroTagOnMain exactTagQuery = .ok "v01.2.3\n" ∧
      ¬ ParsesAsVersionTag "v01.2.3\n" ∧
      repoLeadingZeroTagOnMain stableBranchQuery = .ok "heads/main\n" ∧
      ¬ ContainsStableName "heads/main\n" ∧
      version repoLeadingZeroTagOnMain
        = some { versionType := RELEASE, major := 0, minor := 0, patch := 0,
                 commitSha := "abcdef1234567890\n", date := Time.Unix 1700000000 } :=
  ⟨rfl, rfl, rfl, not_parsesAsVersionTag_leading_zero, rfl, not_containsStableName_main, rfl⟩

end VersionTool
